import Mathlib

/-!
Verification development for the Feishu document-writing tool.

This file gives a shallow embedding, in Lean, of the parts of the
repository that the specification talks about:

  - `scripts/parser.py`   : the Markdown-to-block parser (`MarkdownParser`),
  - `scripts/writer.py`   : the order-preserving interleaved write procedure
    (`FeishuWriter._write_content_with_images`, `FeishuWriter.write_file`),
  - `scripts/doc_writer.py` : the remote-client primitives `append_blocks`
    and `fill_table`,
  - `scripts/uploader.py` : the image cache (`FeishuImageUploader.download_from_url`).

Remote HTTP calls are modelled by oracles (functions supplying the
application-level response for each request) and by traces of emitted
request events; `hashlib.md5` is abstracted as an arbitrary function
parameter, since nothing proved here depends on the hash beyond it being a
function of the URL.  Python string primitives (`strip`, `startswith`,
`split`, regular-expression matching) are translated operation by
operation on `List Char` / `String`.
-/

/-! ## Python string primitives -/

/-- The characters Python's `str.strip()` removes (the `\s` class of `re`). -/
def pySpace (c : Char) : Bool :=
  c == ' ' || c == '\t' || c == '\n' || c == '\r' || c == '\x0b' || c == '\x0c'

/-- Python `str.strip()`. -/
def pyStrip (s : String) : String :=
  String.mk (((s.toList.dropWhile pySpace).reverse.dropWhile pySpace).reverse)

/-- Python `str.startswith`. -/
def strStarts (s p : String) : Bool :=
  p.toList.isPrefixOf s.toList

/-- Python `str.endswith`. -/
def strEnds (s p : String) : Bool :=
  p.toList.reverse.isPrefixOf s.toList.reverse

/-- Python `c in s` for a single character. -/
def strContainsChar (s : String) (c : Char) : Bool :=
  s.toList.contains c

/-- Python `str.split(sep)` for a one-character separator. -/
def splitCharAux (sep : Char) (acc : List Char) : List Char → List (List Char)
  | [] => [acc.reverse]
  | c :: rest =>
    if c == sep then acc.reverse :: splitCharAux sep [] rest
    else splitCharAux sep (c :: acc) rest

/-- Python `str.split(sep)` for a one-character separator, on strings. -/
def pySplitChar (s : String) (sep : Char) : List String :=
  (splitCharAux sep [] s.toList).map String.mk

/-- Python `str.split(sep)` for a non-empty separator string; `fuel`
bounds the scan and `length + 1` always suffices. -/
def splitSubAux (sep : List Char) : Nat → List Char → List Char → List (List Char)
  | 0, acc, rest => [acc.reverse ++ rest]
  | _ + 1, acc, [] => [acc.reverse]
  | fuel + 1, acc, c :: rest =>
    if sep.isPrefixOf (c :: rest) then
      acc.reverse :: splitSubAux sep fuel [] ((c :: rest).drop sep.length)
    else splitSubAux sep fuel (c :: acc) rest

/-- Python `str.split(sep)` for a non-empty separator string. -/
def pySplitStr (s sub : String) : List String :=
  (splitSubAux sub.toList (s.toList.length + 1) [] s.toList).map String.mk

/-- Python `sub in s` (substring containment); `str.split` yields at
least two parts exactly when the separator occurs. -/
def containsSubstr (s sub : String) : Bool :=
  2 ≤ (pySplitStr s sub).length

/-- Python `str.lower()` (ASCII letters, which covers every use site). -/
def pyLower (s : String) : String :=
  String.mk (s.toList.map fun c =>
    if 'A' ≤ c && c ≤ 'Z' then Char.ofNat (c.toNat + 32) else c)

/-- Python `"\n".join(lines)`. -/
def joinNL (lines : List String) : String :=
  String.intercalate "\n" lines

/-- The backquote character (code 96), written via `Char.ofNat`. -/
def backtickChar : Char := Char.ofNat 96

/-! ## Text runs and styles

`parser.py` builds text elements as dictionaries
`{"text_run": {"content": c, "text_element_style": st}}` where the style
dictionary carries at most the keys `bold`, `italic`, `inline_code`,
`link`.  We model the style dictionary with one field per possible key. -/

structure TextStyle where
  bold : Bool
  italic : Bool
  inlineCode : Bool
  link : Option String
deriving DecidableEq

def noStyle : TextStyle := ⟨false, false, false, none⟩
def boldStyle : TextStyle := ⟨true, false, false, none⟩
def italicStyle : TextStyle := ⟨false, true, false, none⟩
def inlineCodeStyle : TextStyle := ⟨false, false, true, none⟩
def linkStyle (url : String) : TextStyle := ⟨false, false, false, some url⟩

/-- Number of styles switched on in a style dictionary. -/
def styleCount (st : TextStyle) : Nat :=
  (if st.bold then 1 else 0) + (if st.italic then 1 else 0) +
    (if st.inlineCode then 1 else 0) + (if st.link.isSome then 1 else 0)

structure TextElement where
  content : String
  style : TextStyle
deriving DecidableEq

def plainElem (s : String) : TextElement := ⟨s, noStyle⟩

/-! ## The inline-format scanner (`MarkdownParser._parse_inline_formats`)

The Python code runs `re.finditer` with the alternation

  bold `**x**` | bold `__x__` | code | italic `*x*` | italic `_x_` | link

where every payload is the non-greedy `(.+?)`.  We implement Python's
regex semantics directly: scan left to right; at each position try the
alternatives in order; within an alternative the non-greedy payload takes
the shortest expansion whose continuation matches; `.` does not match a
newline. -/

/-- Continue the non-greedy payload scan: `acc` holds the payload read so
far (reversed, at least one character); stop at the first position where
the literal `closer` matches. -/
def closerScan (closer : List Char) (acc : List Char) : List Char → Option (List Char × List Char)
  | [] => none
  | c :: rest =>
    if closer.isPrefixOf (c :: rest) then some (acc.reverse, (c :: rest).drop closer.length)
    else if c == '\n' then none
    else closerScan closer (c :: acc) rest

/-- Match `(.+?)` followed by the literal `closer`: at least one
non-newline payload character, then the closer, shortest payload first. -/
def findCloser (closer : List Char) : List Char → Option (List Char × List Char)
  | [] => none
  | c :: rest => if c == '\n' then none else closerScan closer [c] rest

/-- One candidate closing of `\](\((.+?)\))` at the current character: the
label read so far must be non-empty, the current character must be `]`
followed by `(`, and the target must be non-empty and end at the first
`)`. -/
def linkTryClose (acc : List Char) (c : Char) (rest : List Char) : Option (String × String × List Char) :=
  if c == ']' && !acc.isEmpty then
    match rest with
    | '(' :: rest2 =>
      (findCloser [')'] rest2).map fun p => (String.mk acc.reverse, String.mk p.1, p.2)
    | _ => none
  else none

/-- Match the remainder of `\[(.+?)\]\((.+?)\)` after the opening `[`:
find the first `](` whose label part is non-empty and which is followed by
a non-empty target ending at the first `)`; on failure of a candidate,
backtrack by absorbing the `]` into the label. -/
def linkScan (acc : List Char) : List Char → Option (String × String × List Char)
  | [] => none
  | c :: rest =>
    match linkTryClose acc c rest with
    | some r => some r
    | none => if c == '\n' then none else linkScan (c :: acc) rest

/-- Alternative 1: `\*\*(.+?)\*\*`. -/
def matchBoldStar : List Char → Option (TextElement × List Char)
  | '*' :: '*' :: rest =>
    (findCloser ['*', '*'] rest).map fun p => (⟨String.mk p.1, boldStyle⟩, p.2)
  | _ => none

/-- Alternative 2: `__(.+?)__`. -/
def matchBoldUnd : List Char → Option (TextElement × List Char)
  | '_' :: '_' :: rest =>
    (findCloser ['_', '_'] rest).map fun p => (⟨String.mk p.1, boldStyle⟩, p.2)
  | _ => none

/-- Alternative 3: backquoted inline code. -/
def matchCodeTick : List Char → Option (TextElement × List Char)
  | c :: rest =>
    if c == backtickChar then
      (findCloser [backtickChar] rest).map fun p => (⟨String.mk p.1, inlineCodeStyle⟩, p.2)
    else none
  | [] => none

/-- Alternative 4: `\*(.+?)\*`. -/
def matchItalicStar : List Char → Option (TextElement × List Char)
  | '*' :: rest =>
    (findCloser ['*'] rest).map fun p => (⟨String.mk p.1, italicStyle⟩, p.2)
  | _ => none

/-- Alternative 5: `_(.+?)_`. -/
def matchItalicUnd : List Char → Option (TextElement × List Char)
  | '_' :: rest =>
    (findCloser ['_'] rest).map fun p => (⟨String.mk p.1, italicStyle⟩, p.2)
  | _ => none

/-- Alternative 6: `\[(.+?)\]\((.+?)\)`. -/
def matchLink : List Char → Option (TextElement × List Char)
  | '[' :: rest =>
    (linkScan [] rest).map fun p => (⟨p.1, linkStyle p.2.1⟩, p.2.2)
  | _ => none

/-- Try the six alternatives of the inline pattern, in the order they
appear in the Python regex (bold before italic). -/
def matchInlineAt (s : List Char) : Option (TextElement × List Char) :=
  matchBoldStar s <|> matchBoldUnd s <|> matchCodeTick s <|>
    matchItalicStar s <|> matchItalicUnd s <|> matchLink s

/-- Emit the accumulated plain text (if non-empty) as one unstyled run. -/
def flushPlain (acc : List Char) : List TextElement :=
  if acc.isEmpty then [] else [plainElem (String.mk acc.reverse)]

/-- The `re.finditer` scan: plain text between matches becomes unstyled
runs.  `fuel` bounds the number of steps; each step consumes at least one
character, so `length + 1` fuel always suffices. -/
def scanInline : Nat → List Char → List Char → List TextElement
  | 0, acc, _ => flushPlain acc
  | _ + 1, acc, [] => flushPlain acc
  | fuel + 1, acc, c :: rest =>
    match matchInlineAt (c :: rest) with
    | some (e, rest') => flushPlain acc ++ e :: scanInline fuel [] rest'
    | none => scanInline fuel (c :: acc) rest

/-- `MarkdownParser._parse_inline_formats`. -/
def parseInlineFormats (text : String) : List TextElement :=
  let r := scanInline (text.toList.length + 1) [] text.toList
  if r.isEmpty then [plainElem text] else r

/-- `MarkdownParser._create_text_elements`. -/
def createTextElements (text : String) : List TextElement :=
  let parts := parseInlineFormats text
  if parts.isEmpty then [plainElem text] else parts

example : createTextElements "**bold**" = [⟨"bold", boldStyle⟩] := by decide
example : createTextElements "*italic*" = [⟨"italic", italicStyle⟩] := by decide
example : createTextElements "[text](url)" = [⟨"text", linkStyle "url"⟩] := by decide
example : createTextElements "a **b** c" =
    [plainElem "a ", ⟨"b", boldStyle⟩, plainElem " c"] := by decide

/-! ## Blocks (`MarkdownParser._create_*_block`)

Python represents blocks as dictionaries whose `block_type` field selects
the variant (2 text, 3 to 11 headings, 12 bullet, 13 ordered, 14 code, 15
quote, 22 divider) or a placeholder-marker string for images and tables.
We model them as a tagged variant; heading blocks carry the (capped)
depth, code blocks the numeric language code. -/

inductive Block where
  | heading (level : Nat) (elements : List TextElement)
  | text (elements : List TextElement)
  | code (content : String) (language : Nat)
  | quote (elements : List TextElement)
  | bullet (elements : List TextElement)
  | ordered (elements : List TextElement)
  | divider
  | imagePlaceholder (path : String) (isUrl : Bool)
  | tablePlaceholder (data : List (List String)) (rows cols : Nat)
deriving DecidableEq

def isImagePH : Block → Bool
  | .imagePlaceholder _ _ => true
  | _ => false

def isTablePH : Block → Bool
  | .tablePlaceholder _ _ _ => true
  | _ => false

def isPlaceholder (b : Block) : Bool := isImagePH b || isTablePH b

/-- The language-name table of `MarkdownParser._create_code_block`;
unknown names fall back to 47 (plain text). -/
def languageMap (language : String) : Nat :=
  match pyLower language with
  | "python" => 49 | "javascript" => 22 | "js" => 22 | "typescript" => 67
  | "ts" => 67 | "java" => 21 | "go" => 18 | "c" => 7 | "cpp" => 9
  | "c++" => 9 | "csharp" => 10 | "c#" => 10 | "ruby" => 54 | "php" => 46
  | "swift" => 64 | "kotlin" => 27 | "rust" => 55 | "sql" => 61
  | "shell" => 58 | "bash" => 58 | "json" => 23 | "xml" => 73
  | "html" => 20 | "css" => 11 | "yaml" => 74 | "markdown" => 35
  | "plain_text" => 47 | _ => 47

def createHeadingBlock (text : String) (level : Nat) : Block :=
  .heading level (createTextElements text)

def createTextBlock (text : String) : Block :=
  .text (createTextElements text)

def createCodeBlock (code : String) (language : String) : Block :=
  .code code (languageMap language)

def createQuoteBlock (text : String) : Block :=
  .quote (createTextElements text)

def createBulletBlock (text : String) : Block :=
  .bullet (createTextElements text)

def createOrderedBlock (text : String) : Block :=
  .ordered (createTextElements text)

def createDividerBlock : Block := .divider

/-! ## Table-region parsing (`MarkdownParser._parse_table`) -/

/-- `MarkdownParser._parse_table_row`: strip the line, drop one leading
and one trailing column delimiter, split on the delimiter, strip each
cell. -/
def parseTableRow (line : String) : List String :=
  let l := pyStrip line
  let l := if strStarts l "|" then l.drop 1 else l
  let l := if strEnds l "|" then l.dropRight 1 else l
  (pySplitChar l '|').map pyStrip

/-- The alignment-row cell test, regex `^[\-:]+$` applied to the stripped
cell: non-empty and consisting solely of dashes and colons. -/
def isAlignCell (cell : String) : Bool :=
  let c := (pyStrip cell).toList
  !c.isEmpty && c.all (fun ch => ch == '-' || ch == ':')

/-- `MarkdownParser._parse_table` from the current position: collect rows
while lines (stripped) begin with the delimiter, dropping every row all of
whose cells match the alignment pattern; returns the collected rows and
the number of lines consumed. -/
def parseTableAux : List String → List (List String) × Nat
  | [] => ([], 0)
  | l :: ls =>
    if strStarts (pyStrip l) "|" then
      if (parseTableRow (pyStrip l)).isEmpty then ([], 0)
      else if (parseTableRow (pyStrip l)).all isAlignCell then
        ((parseTableAux ls).1, (parseTableAux ls).2 + 1)
      else (parseTableRow (pyStrip l) :: (parseTableAux ls).1, (parseTableAux ls).2 + 1)
    else ([], 0)

/-- Column count: `max(len(row) for row in table_data)` and 0 for an empty
table. -/
def maxLen (d : List (List String)) : Nat :=
  (d.map List.length).foldr max 0

/-! ## Image-reference matching (regex `!\[(.*?)\]\((.*?)\)`, anchored) -/

/-- Match `(.*?)\)`: a possibly empty run of non-newline characters up to
the first `)`. -/
def parenClose (acc : List Char) : List Char → Option (List Char)
  | [] => none
  | ')' :: _ => some acc.reverse
  | c :: rest => if c == '\n' then none else parenClose (c :: acc) rest

/-- One candidate closing of the image pattern at the current character:
`]` followed by `(`, then a possibly empty target up to the first `)`
(the alt text may be empty, unlike a link label). -/
def imgTryClose (acc : List Char) (c : Char) (rest : List Char) : Option (String × String) :=
  if c == ']' then
    match rest with
    | '(' :: rest2 => (parenClose [] rest2).map fun p => (String.mk acc.reverse, String.mk p)
    | _ => none
  else none

/-- Scan for the first `](` followed by a closable `)`, backtracking by
absorbing a failed `]` into the alt text. -/
def imgScan (acc : List Char) : List Char → Option (String × String)
  | [] => none
  | c :: rest =>
    match imgTryClose acc c rest with
    | some r => some r
    | none => if c == '\n' then none else imgScan (c :: acc) rest

/-- `re.match(r"!\[(.*?)\]\((.*?)\)", line)`: anchored at the start of the
line; returns (alt text, image path) on a match. -/
def imgMatchLine (line : String) : Option (String × String) :=
  match line.toList with
  | '!' :: '[' :: rest => imgScan [] rest
  | _ => none

/-! ## Line classification helpers of `MarkdownParser.parse` -/

/-- Count of leading heading markers, regex `^#+`. -/
def hashCount (line : String) : Nat :=
  (line.toList.takeWhile (fun c => c == '#')).length

/-- Unordered-list test, regex `^[\-\*\+]\s`. -/
def isBulletLine (line : String) : Bool :=
  match line.toList with
  | c1 :: c2 :: _ => (c1 == '-' || c1 == '*' || c1 == '+') && pySpace c2
  | _ => false

/-- Ordered-list test, regex `^\d+\.\s`. -/
def isOrderedLine (line : String) : Bool :=
  let cs := line.toList
  let ds := cs.takeWhile Char.isDigit
  !ds.isEmpty &&
    match cs.drop ds.length with
    | '.' :: c :: _ => pySpace c
    | _ => false

/-- Number of characters removed by `re.sub(r"^\d+\.\s", "", line)`:
the digits, the dot and one whitespace character. -/
def orderedMarkerLen (line : String) : Nat :=
  (line.toList.takeWhile Char.isDigit).length + 2

/-- Divider test, regex `^[\-\*\_]{3,}$` on the stripped line. -/
def isDividerLine (line : String) : Bool :=
  let t := (pyStrip line).toList
  decide (3 ≤ t.length) && t.all (fun c => c == '-' || c == '*' || c == '_')

/-- Table-start test of `MarkdownParser.parse`:
`line.strip().startswith("|") and "|" in line[1:]`. -/
def isTableStart (line : String) : Bool :=
  strStarts (pyStrip line) "|" && strContainsChar (line.drop 1) '|'

/-! ## The parser state and main loop (`MarkdownParser.parse`) -/

/-- The mutable state of a `MarkdownParser` during `parse`: the block list
built so far plus the two pending side lists (`pending_images` entries are
`(block_index, image_path, is_url)`, `pending_tables` entries are
`(block_index, table_data)`). -/
structure PState where
  blocks : List Block
  pendingImages : List (Nat × String × Bool)
  pendingTables : List (Nat × List (List String))
deriving DecidableEq

def PState.push (st : PState) (b : Block) : PState :=
  ⟨st.blocks ++ [b], st.pendingImages, st.pendingTables⟩

def PState.pushMany (st : PState) (bs : List Block) : PState :=
  ⟨st.blocks ++ bs, st.pendingImages, st.pendingTables⟩

/-- `MarkdownParser._create_image_block`: record the pending image at the
current block index, then append the placeholder block. -/
def PState.pushImage (st : PState) (path : String) : PState :=
  let isUrl := strStarts path "http://" || strStarts path "https://"
  ⟨st.blocks ++ [Block.imagePlaceholder path isUrl],
   st.pendingImages ++ [(st.blocks.length, path, isUrl)],
   st.pendingTables⟩

/-- `MarkdownParser._create_table_block`: record the pending table at the
current block index, then append the placeholder block carrying the grid
and its dimensions. -/
def PState.pushTable (st : PState) (d : List (List String)) : PState :=
  ⟨st.blocks ++ [Block.tablePlaceholder d d.length (maxLen d)],
   st.pendingImages,
   st.pendingTables ++ [(st.blocks.length, d)]⟩

/-- The branches of the parse loop below the table check: image
reference, quote run, unordered-list run, ordered-list run, divider,
paragraph, blank line.  Returns the new state and the remaining lines. -/
def parseOther (line : String) (rest : List String) (st : PState) : PState × List String :=
  match imgMatchLine line with
  | some p => (st.pushImage p.2, rest)
  | none =>
    if strStarts line ">" then
      (st.push (createQuoteBlock (joinNL
          (((line :: rest).takeWhile (fun l => strStarts l ">")).map
            (fun l => pyStrip (l.drop 1))))),
       (line :: rest).dropWhile (fun l => strStarts l ">"))
    else if isBulletLine line then
      (st.pushMany (((line :: rest).takeWhile isBulletLine).map
          (fun l => createBulletBlock (l.drop 2))),
       (line :: rest).dropWhile isBulletLine)
    else if isOrderedLine line then
      (st.pushMany (((line :: rest).takeWhile isOrderedLine).map
          (fun l => createOrderedBlock (l.drop (orderedMarkerLen l)))),
       (line :: rest).dropWhile isOrderedLine)
    else if isDividerLine line then (st.push createDividerBlock, rest)
    else if (pyStrip line).isEmpty then (st, rest)
    else (st.push (createTextBlock line), rest)

/-- The main loop of `MarkdownParser.parse`, one fuel unit per loop
iteration; every iteration consumes at least one line, so
`length + 1` fuel always suffices. -/
def parseLines : Nat → List String → PState → PState
  | 0, _, st => st
  | _ + 1, [], st => st
  | fuel + 1, line :: rest, st =>
    if strStarts line "#" then
      parseLines fuel rest
        (st.push (createHeadingBlock (pyStrip (line.drop (hashCount line)))
          (min (hashCount line) 9)))
    else if strStarts line "```" then
      parseLines fuel ((rest.dropWhile (fun l => !strStarts l "```")).drop 1)
        (st.push (createCodeBlock (joinNL (rest.takeWhile (fun l => !strStarts l "```")))
          (if (pyStrip (line.drop 3)).isEmpty then "plain_text" else pyStrip (line.drop 3))))
    else if isTableStart line then
      if (parseTableAux (line :: rest)).1.isEmpty then
        parseLines fuel (parseOther line rest st).2 (parseOther line rest st).1
      else
        parseLines fuel ((line :: rest).drop (parseTableAux (line :: rest)).2)
          (st.pushTable (parseTableAux (line :: rest)).1)
    else parseLines fuel (parseOther line rest st).2 (parseOther line rest st).1

/-- `MarkdownParser.parse`: split the input on newlines and run the loop
from the empty state. -/
def parse (content : String) : PState :=
  let lines := pySplitChar content '\n'
  parseLines (lines.length + 1) lines ⟨[], [], []⟩

example :
    (parse "# Title\nhello\n```py\nx = 1\n```").blocks =
      [createHeadingBlock "Title" 1, createTextBlock "hello",
       createCodeBlock "x = 1" "py"] := by decide

example :
    (parse "|a|b|\n|---|---|\n|1|2|").blocks =
      [Block.tablePlaceholder [["a", "b"], ["1", "2"]] 2 2] := by decide

example :
    (parse "![alt](http://x/y.png)").pendingImages =
      [(0, "http://x/y.png", true)] := by decide

/-! ## The interleaved write procedure
(`FeishuWriter._write_content_with_images`)

The procedure walks the block list by position, accumulating ordinary
blocks in a batch; at a position recorded in the image map it flushes the
batch with one `append_blocks` call and performs the three-step image
handling (create placeholder, upload, bind token); at a position recorded
in the table map it flushes the batch and performs the table handling
(create table, fill); the final batch is flushed after the walk.  Remote
calls are modelled as a trace of events, with per-position oracles
supplying each call's outcome; the returned uploaded-image counter is not
modelled, as no claim concerns it. -/

inductive WEvent where
  | appendBatch (batch : List Block)
  | createImage
  | uploadImage (path : String) (blockId : String)
  | replaceImageToken (blockId : String) (fileToken : String)
  | createTable (rows cols : Nat)
  | fillTable (tableId : String) (data : List (List String))
deriving DecidableEq

/-- Outcomes of the remote calls of the write procedure, indexed by the
block position at which they are made: `none` models a failed call. -/
structure WOracles where
  createImageRes : Nat → Option String
  uploadRes : Nat → Option String
  createTableRes : Nat → Option String

/-- The image-handling steps at one flagged position: the placeholder
creation is always attempted; each later step runs only if the previous
one succeeded (`continue` on failure in the Python loop). -/
def imageEvents (o : WOracles) (i : Nat) (path : String) : List WEvent :=
  WEvent.createImage ::
    match o.createImageRes i with
    | none => []
    | some bid =>
      WEvent.uploadImage path bid ::
        match o.uploadRes i with
        | none => []
        | some tok => [WEvent.replaceImageToken bid tok]

/-- The table-handling steps at one flagged position: skipped entirely for
degenerate dimensions; the fill runs only if creation succeeded. -/
def tableEvents (o : WOracles) (i : Nat) (d : List (List String)) : List WEvent :=
  if 0 < d.length ∧ 0 < maxLen d then
    WEvent.createTable d.length (maxLen d) ::
      match o.createTableRes i with
      | none => []
      | some tid => [WEvent.fillTable tid d]
  else []

/-- Flush the accumulated ordinary-block batch: one `append_blocks` call,
or nothing if the batch is empty. -/
def flushBatch (batch : List Block) : List WEvent :=
  if batch.isEmpty then [] else [WEvent.appendBatch batch]

/-- The dictionary built from a pending list by
`{idx: v for idx, v in pending}`: the last entry for an index wins. -/
def mapOfPending {α : Type} (l : List (Nat × α)) : Nat → Option α :=
  fun i => (l.reverse.find? (fun p => p.1 == i)).map (fun p => p.2)

/-- The walk over the indexed block list with its accumulator batch; the
image map is consulted before the table map, as in the Python `if`/`elif`. -/
def writeLoop (o : WOracles) (imap : Nat → Option (String × Bool))
    (tmap : Nat → Option (List (List String))) :
    List (Nat × Block) → List Block → List WEvent
  | [], batch => flushBatch batch
  | (i, b) :: rest, batch =>
    match imap i with
    | some pu => flushBatch batch ++ imageEvents o i pu.1 ++ writeLoop o imap tmap rest []
    | none =>
      match tmap i with
      | some d => flushBatch batch ++ tableEvents o i d ++ writeLoop o imap tmap rest []
      | none => writeLoop o imap tmap rest (batch ++ [b])

/-- `FeishuWriter._write_content_with_images` as a trace of remote
events. -/
def writeContent (o : WOracles) (blocks : List Block)
    (pimgs : List (Nat × String × Bool)) (ptbls : List (Nat × List (List String))) :
    List WEvent :=
  writeLoop o (mapOfPending pimgs) (mapOfPending ptbls) blocks.enum []

/-! ### The specification-side ordered write

Reference definition, written from the specification's words for the
order-preservation claim: cut the indexed block sequence into maximal runs
of unflagged positions separated by flagged positions; append each
non-empty run as one batch, in place, with the flagged position's special
calls between the surrounding runs, and append the final run at the end. -/

def flaggedAt (imap : Nat → Option (String × Bool))
    (tmap : Nat → Option (List (List String))) (i : Nat) : Bool :=
  (imap i).isSome || (tmap i).isSome

/-- The special calls of a flagged position (image handling takes
precedence over table handling). -/
def specialEvents (o : WOracles) (imap : Nat → Option (String × Bool))
    (tmap : Nat → Option (List (List String))) (i : Nat) : List WEvent :=
  match imap i with
  | some pu => imageEvents o i pu.1
  | none =>
    match tmap i with
    | some d => tableEvents o i d
    | none => []

/-- Reference ordered write, following the specification: emit the run of
ordinary blocks before the next flagged position as one batch, then that
position's special calls, and recurse on the remainder; the trailing run
is emitted last.  `fuel` bounds the recursion and `length + 1` always
suffices. -/
def orderedWriteSpec (o : WOracles) (imap : Nat → Option (String × Bool))
    (tmap : Nat → Option (List (List String))) :
    Nat → List (Nat × Block) → List WEvent
  | 0, l => flushBatch (l.map (fun p => p.2))
  | fuel + 1, l =>
    match l.dropWhile (fun p => !flaggedAt imap tmap p.1) with
    | [] => flushBatch ((l.takeWhile (fun p => !flaggedAt imap tmap p.1)).map (fun p => p.2))
    | sp :: rest =>
      flushBatch ((l.takeWhile (fun p => !flaggedAt imap tmap p.1)).map (fun p => p.2)) ++
        specialEvents o imap tmap sp.1 ++ orderedWriteSpec o imap tmap fuel rest

/-- Reference ordered write over a block list. -/
def orderedWriteSpecTop (o : WOracles) (imap : Nat → Option (String × Bool))
    (tmap : Nat → Option (List (List String))) (blocks : List Block) : List WEvent :=
  orderedWriteSpec o imap tmap (blocks.length + 1) blocks.enum

/-! ## `FeishuDocWriter.append_blocks`

The batch is posted in chunks of at most 50 blocks; `codes k` is the
application-level status code of the `k`-th request (0 is success).  The
result is the returned boolean together with the trace of posted chunks:
a chunk with a non-zero code is still posted (the failure is observed in
the response), but no later chunk is. -/

/-- The successive slices `blocks[i:i+50]` for `i in
range(0, len(blocks), 50)`. -/
def chunkList (l : List Block) : List (List Block) :=
  (List.range ((l.length + 49) / 50)).map (fun i => (l.drop (50 * i)).take 50)

/-- The chunk loop from request index `k`: post each chunk in turn and
stop at the first non-zero status code (posting the failing chunk, not
its successors). -/
def appendChunksGo (codes : Nat → Nat) (k : Nat) :
    List (List Block) → Bool × List (List Block)
  | [] => (true, [])
  | chunk :: rest =>
    if codes k ≠ 0 then (false, [chunk])
    else
      let r := appendChunksGo codes (k + 1) rest
      (r.1, chunk :: r.2)

/-- `FeishuDocWriter.append_blocks`: an empty batch succeeds with no
request. -/
def append_blocks (codes : Nat → Nat) (blocks : List Block) :
    Bool × List (List Block) :=
  if blocks.isEmpty then (true, []) else appendChunksGo codes 0 (chunkList blocks)

/-- The least request index with a non-zero code among the first `n`,
relative to a code stream. -/
def firstBad (f : Nat → Nat) : Nat → Option Nat
  | 0 => none
  | n + 1 =>
    if f 0 ≠ 0 then some 0
    else (firstBad (fun j => f (j + 1)) n).map (· + 1)

/-! ## `FeishuDocWriter.fill_table`

The cell containers fetched from the created table are `cells` (the
fetch's failure is `fetchRes = none`, in which case nothing is filled and
`False` is returned).  Cell `(r, c)` of the grid maps to container
`r * cols + c`; the inner loop breaks at the first index beyond the
container list, skips columns beyond the row's own length and skips empty
strings; a failed fill (oracle `ok`) is only logged, so the loop
continues. -/

structure FillEvent where
  row : Nat
  col : Nat
  cellId : String
  content : String
  ok : Bool
deriving DecidableEq

/-- The inner loop of `fill_table` for row `r`. -/
def fillRowEvents (ok : Nat → Nat → Bool) (cells : List String) (cols : Nat)
    (r : Nat) (rowData : List String) : List FillEvent :=
  ((List.range cols).takeWhile (fun c => decide (r * cols + c < cells.length))).filterMap
    (fun c =>
      if c < rowData.length then
        if rowData.getD c "" ≠ "" then
          some ⟨r, c, cells.getD (r * cols + c) "", rowData.getD c "", ok r c⟩
        else none
      else none)

/-- `FeishuDocWriter.fill_table` as (result, trace of attempted cell
fills). -/
def fill_table (ok : Nat → Nat → Bool) (fetchRes : Option (List String))
    (tableData : List (List String)) : Bool × List FillEvent :=
  match fetchRes with
  | none => (false, [])
  | some cells =>
    let cols := maxLen tableData
    (true,
      ((List.range tableData.length).map
        (fun r => fillRowEvents ok cells cols r (tableData.getD r []))).flatten)

/-- Row-major order on fill events. -/
def rowMajorLt (e1 e2 : FillEvent) : Prop :=
  e1.row < e2.row ∨ (e1.row = e2.row ∧ e1.col < e2.col)

/-- A fill event without its outcome: the call that was attempted. -/
def FillEvent.call (e : FillEvent) : Nat × Nat × String × String :=
  (e.row, e.col, e.cellId, e.content)

/-! ## `FeishuImageUploader.download_from_url`

The cache directory is modelled as the list of file names present in it;
`hash` abstracts the hex digest prefix `hashlib.md5(url).hexdigest()[:12]`
and `fetchOk` the success of the HTTP fetch.  The result is (returned
path, new cache contents, number of network fetches performed). -/

/-- The extensions accepted directly from the URL path. -/
def allowedExts : List String :=
  [".jpg", ".jpeg", ".png", ".gif", ".webp", ".bmp", ".svg"]

/-- Split at the first occurrence of a non-empty separator. -/
def splitFirstSub (sep : List Char) : List Char → Option (List Char × List Char)
  | [] => none
  | c :: rest =>
    if sep.isPrefixOf (c :: rest) then some ([], (c :: rest).drop sep.length)
    else
      match splitFirstSub sep rest with
      | none => none
      | some p => some (c :: p.1, p.2)

/-- `urlparse(url).path`: after `scheme://`, skip the authority (up to the
first of `/`, `?`, `#`); the path then runs up to the first `?` or `#`.
Without a scheme separator the whole string up to `?` or `#` is the
path. -/
def urlPath (url : String) : String :=
  match splitFirstSub ("://".toList) url.toList with
  | none => String.mk (url.toList.takeWhile (fun c => !(c == '?' || c == '#')))
  | some p =>
    let netlocRest := p.2.dropWhile (fun c => !(c == '/' || c == '?' || c == '#'))
    match netlocRest with
    | [] => ""
    | c :: _ =>
      if c == '/' then String.mk (netlocRest.takeWhile (fun c => !(c == '?' || c == '#')))
      else ""

/-- `os.path.splitext(p)[1]`: the suffix of the last path component from
its last dot, provided some earlier character of the component is not a
dot (so dotfiles have no extension). -/
def splitextExt (p : String) : String :=
  let base := ((pySplitChar p '/').getLastD "").toList
  let revTail := base.reverse.takeWhile (fun c => !(c == '.'))
  if revTail.length == base.length then ""
  else
    let stemPart := base.take (base.length - revTail.length - 1)
    if stemPart.any (fun c => !(c == '.')) then String.mk ('.' :: revTail.reverse)
    else ""

/-- The WeChat `wx_fmt` query-parameter fallback table (default `.jpg`). -/
def wxExtMap (fmt : String) : String :=
  match fmt with
  | "jpeg" => ".jpg" | "jpg" => ".jpg" | "png" => ".png" | "gif" => ".gif"
  | "webp" => ".webp" | "bmp" => ".bmp" | _ => ".jpg"

/-- The extension-inference chain of `download_from_url`: URL-path
extension if recognised, else the `wx_fmt` hint, else `.jpg`. -/
def inferExt (url : String) : String :=
  let ext := splitextExt (urlPath url)
  if !ext.isEmpty && allowedExts.contains (pyLower ext) then ext
  else if containsSubstr url "wx_fmt=" then
    wxExtMap (((pySplitStr url "wx_fmt=").getLastD "" |> fun s => pySplitChar s '&').headD "")
  else ".jpg"

/-- The derived cache file name `img_<md5 12-hex-digit prefix><ext>`. -/
def imgCacheName (hash : String → String) (url : String) : String :=
  "img_" ++ hash url ++ inferExt url

/-- `FeishuImageUploader.download_from_url`: reuse an existing cache
entry without fetching; otherwise fetch once, persisting the file only on
success. -/
def download_from_url (hash : String → String) (fetchOk : String → Bool)
    (cache : List String) (url : String) : Option String × List String × Nat :=
  if imgCacheName hash url ∈ cache then (some (imgCacheName hash url), cache, 0)
  else if fetchOk url then
    (some (imgCacheName hash url), imgCacheName hash url :: cache, 1)
  else (none, cache, 1)

/-! ## `FeishuWriter.write_file`

The publish flow after the source file has been read and parsed: optional
duplicate check against the folder listing, then document creation in the
requested target, then the interleaved content write (represented here by
one `writeContent` marker event, the procedure itself being modelled
above).  Python truthiness of optional strings (`None` and `""` both
falsy) is `optTruthy`. -/

structure DocInfo where
  name : String
  token : String
deriving DecidableEq

inductive Target where
  | space
  | folder
  | wiki
deriving DecidableEq

inductive WfCall where
  | listFiles (folderToken : String)
  | getWikiSpace (nodeToken : String)
  | createWikiDoc (title : String) (spaceId : String) (parent : Option String)
  | createDoc (title : String) (folderToken : Option String)
  | writeContent (docId : String)
deriving DecidableEq

inductive WfResult where
  | duplicate (existingToken : String) (title : String) (doc : DocInfo)
  | noWikiSpace
  | createFailed
  | success (docId : String) (nodeToken : Option String)
deriving DecidableEq

/-- The collaborators of `write_file`: the folder listing, the two wiki
environment variables, and the outcomes of the remote calls (`none`
models an exception or missing value). -/
structure WfEnv where
  listing : String → List DocInfo
  envWikiSpaceId : Option String
  envWikiNodeToken : Option String
  wikiSpaceOf : String → Option String
  createWikiRes : Option (String × String)
  createDocRes : Option (String × String)

/-- Python truthiness of an optional string. -/
def optTruthy : Option String → Bool
  | none => false
  | some s => !s.isEmpty

/-- Python `a or b` on optional strings. -/
def pyOrOpt (a b : Option String) : Option String :=
  if optTruthy a then a else b

/-- `Path(p).stem`: the final path component without its extension. -/
def pathStem (p : String) : String :=
  let base := (pySplitChar p '/').getLastD ""
  base.dropRight (splitextExt base).length

/-- `FeishuWriter.write_file` (after reading and parsing the source
file), as (result, trace of remote calls). -/
def write_file (env : WfEnv) (mdPath : String) (target : Target)
    (folderToken wikiToken : Option String) (checkDuplicate : Bool) :
    WfResult × List WfCall :=
  let title := pathStem mdPath
  let doDup := checkDuplicate && optTruthy folderToken
  let ft := folderToken.getD ""
  let dupTrace := if doDup then [WfCall.listFiles ft] else []
  let existing :=
    if doDup then (env.listing ft).find? (fun d => d.name == title) else none
  match existing with
  | some doc => (WfResult.duplicate doc.token title doc, dupTrace)
  | none =>
    match target with
    | Target.wiki =>
      let wikiNode := pyOrOpt wikiToken env.envWikiNodeToken
      let spaceFetch : Option String × List WfCall :=
        if optTruthy wikiNode && !optTruthy env.envWikiSpaceId then
          (env.wikiSpaceOf (wikiNode.getD ""), [WfCall.getWikiSpace (wikiNode.getD "")])
        else (env.envWikiSpaceId, [])
      if !optTruthy spaceFetch.1 then (WfResult.noWikiSpace, dupTrace ++ spaceFetch.2)
      else
        match env.createWikiRes with
        | none =>
          (WfResult.createFailed,
           dupTrace ++ spaceFetch.2 ++
             [WfCall.createWikiDoc title (spaceFetch.1.getD "") wikiNode])
        | some r =>
          (WfResult.success r.1 (some r.2),
           dupTrace ++ spaceFetch.2 ++
             [WfCall.createWikiDoc title (spaceFetch.1.getD "") wikiNode,
              WfCall.writeContent r.1])
    | _ =>
      let fld := if target == Target.folder then folderToken else none
      match env.createDocRes with
      | none => (WfResult.createFailed, dupTrace ++ [WfCall.createDoc title fld])
      | some r =>
        (WfResult.success r.1 none,
         dupTrace ++ [WfCall.createDoc title fld, WfCall.writeContent r.1])

/-! # Theorems

One theorem per claim of the specification audit, preceded by the
supporting lemmas it needs. -/

/-! ## C5: inline-format round trip and single styles -/

theorem matchBoldStar_style {s : List Char} {x : TextElement × List Char}
    (h : matchBoldStar s = some x) : styleCount x.1.style ≤ 1 := by
  unfold matchBoldStar at h
  split at h
  · rw [Option.map_eq_some'] at h
    obtain ⟨p, -, hx⟩ := h
    subst hx
    simp [styleCount, boldStyle]
  · exact Option.noConfusion h

theorem matchBoldUnd_style {s : List Char} {x : TextElement × List Char}
    (h : matchBoldUnd s = some x) : styleCount x.1.style ≤ 1 := by
  unfold matchBoldUnd at h
  split at h
  · rw [Option.map_eq_some'] at h
    obtain ⟨p, -, hx⟩ := h
    subst hx
    simp [styleCount, boldStyle]
  · exact Option.noConfusion h

theorem matchCodeTick_style {s : List Char} {x : TextElement × List Char}
    (h : matchCodeTick s = some x) : styleCount x.1.style ≤ 1 := by
  unfold matchCodeTick at h
  split at h
  · split at h
    · rw [Option.map_eq_some'] at h
      obtain ⟨p, -, hx⟩ := h
      subst hx
      simp [styleCount, inlineCodeStyle]
    · exact Option.noConfusion h
  · exact Option.noConfusion h

theorem matchItalicStar_style {s : List Char} {x : TextElement × List Char}
    (h : matchItalicStar s = some x) : styleCount x.1.style ≤ 1 := by
  unfold matchItalicStar at h
  split at h
  · rw [Option.map_eq_some'] at h
    obtain ⟨p, -, hx⟩ := h
    subst hx
    simp [styleCount, italicStyle]
  · exact Option.noConfusion h

theorem matchItalicUnd_style {s : List Char} {x : TextElement × List Char}
    (h : matchItalicUnd s = some x) : styleCount x.1.style ≤ 1 := by
  unfold matchItalicUnd at h
  split at h
  · rw [Option.map_eq_some'] at h
    obtain ⟨p, -, hx⟩ := h
    subst hx
    simp [styleCount, italicStyle]
  · exact Option.noConfusion h

theorem matchLink_style {s : List Char} {x : TextElement × List Char}
    (h : matchLink s = some x) : styleCount x.1.style ≤ 1 := by
  unfold matchLink at h
  split at h
  · rw [Option.map_eq_some'] at h
    obtain ⟨p, -, hx⟩ := h
    subst hx
    simp [styleCount, linkStyle]
  · exact Option.noConfusion h

/-- Every element produced by one regex match carries at most one style. -/
theorem matchInlineAt_style {s : List Char} {x : TextElement × List Char}
    (h : matchInlineAt s = some x) : styleCount x.1.style ≤ 1 := by
  unfold matchInlineAt at h
  rw [Option.orElse_eq_some] at h
  rcases h with h | ⟨-, h⟩
  · exact matchBoldStar_style h
  rw [Option.orElse_eq_some] at h
  rcases h with h | ⟨-, h⟩
  · exact matchBoldUnd_style h
  rw [Option.orElse_eq_some] at h
  rcases h with h | ⟨-, h⟩
  · exact matchCodeTick_style h
  rw [Option.orElse_eq_some] at h
  rcases h with h | ⟨-, h⟩
  · exact matchItalicStar_style h
  rw [Option.orElse_eq_some] at h
  rcases h with h | ⟨-, h⟩
  · exact matchItalicUnd_style h
  · exact matchLink_style h

theorem mem_flushPlain {acc : List Char} {e : TextElement}
    (h : e ∈ flushPlain acc) : e = plainElem (String.mk acc.reverse) := by
  unfold flushPlain at h
  split at h
  · exact absurd h (by simp)
  · simpa using h

theorem plainElem_style (s : String) : styleCount (plainElem s).style ≤ 1 := by
  simp [plainElem, styleCount, noStyle]

theorem scanInline_style :
    ∀ (fuel : Nat) (acc s : List Char) (e : TextElement),
      e ∈ scanInline fuel acc s → styleCount e.style ≤ 1 := by
  intro fuel
  induction fuel with
  | zero =>
    intro acc s e h
    rw [scanInline] at h
    rw [mem_flushPlain h]
    exact plainElem_style _
  | succ fuel ih =>
    intro acc s e h
    match s with
    | [] =>
      rw [scanInline] at h
      rw [mem_flushPlain h]
      exact plainElem_style _
    | c :: rest =>
      rw [scanInline] at h
      rcases hm : matchInlineAt (c :: rest) with _ | x
      · rw [hm] at h
        exact ih (c :: acc) rest e h
      · rw [hm] at h
        rcases List.mem_append.mp h with h1 | h1
        · rw [mem_flushPlain h1]
          exact plainElem_style _
        · rcases List.mem_cons.mp h1 with h2 | h2
          · subst h2
            exact matchInlineAt_style hm
          · exact ih [] x.2 e h2

theorem createTextElements_style (text : String) (e : TextElement)
    (h : e ∈ createTextElements text) : styleCount e.style ≤ 1 := by
  simp only [createTextElements, parseInlineFormats] at h
  split at h
  · rcases List.mem_cons.mp h with h1 | h1
    · subst h1
      exact plainElem_style _
    · exact absurd h1 (by simp)
  · exact scanInline_style _ [] text.toList e h

/-- C5.  Parsing `**bold**`, backquoted `code`, `*italic*` and
`[text](url)` each yields exactly one styled run with no extra plain
runs; the bold alternative is tried before the italic one, so `**x**` is
parsed as bold, never as italics; and every run produced by the inline
scanner carries at most one style. -/
theorem inline_formats_round_trip :
    (createTextElements "**bold**" = [⟨"bold", boldStyle⟩] ∧
      createTextElements "`code`" = [⟨"code", inlineCodeStyle⟩] ∧
      createTextElements "*italic*" = [⟨"italic", italicStyle⟩] ∧
      createTextElements "[text](url)" = [⟨"text", linkStyle "url"⟩] ∧
      createTextElements "**x**" = [⟨"x", boldStyle⟩]) ∧
    ∀ (text : String) (e : TextElement),
      e ∈ createTextElements text → styleCount e.style ≤ 1 := by
  constructor
  · exact ⟨by decide, by decide, by decide, by decide, by decide⟩
  · exact createTextElements_style

/-- C5, witness: the single-style bound applied at a concrete run of the
scanner. -/
theorem inline_formats_round_trip_witness :
    styleCount (TextElement.mk "bold" boldStyle).style ≤ 1 :=
  inline_formats_round_trip.2 "**bold**" ⟨"bold", boldStyle⟩ (by decide)

/-! ## C2: heading lines -/

/-- The heading block the parser emits for a line starting with `#`:
depth is the leading-marker count capped at 9, text is the stripped
remainder. -/
def headingOf (l : String) : Block :=
  createHeadingBlock (pyStrip (l.drop (hashCount l))) (min (hashCount l) 9)

/-- The depth stored in a heading block. -/
def headingDepth : Block → Option Nat
  | .heading lvl _ => some lvl
  | _ => none

theorem parseLines_headings :
    ∀ (lines : List String) (fuel : Nat) (st : PState),
      (∀ l ∈ lines, strStarts l "#" = true) → lines.length ≤ fuel →
      parseLines fuel lines st =
        ⟨st.blocks ++ lines.map headingOf, st.pendingImages, st.pendingTables⟩ := by
  intro lines
  induction lines with
  | nil =>
    intro fuel st _ _
    cases fuel <;> simp [parseLines]
  | cons line rest ih =>
    intro fuel st hall hlen
    match fuel with
    | 0 => simp at hlen
    | f + 1 =>
      have hline : strStarts line "#" = true := hall line (by simp)
      rw [parseLines, if_pos hline]
      show parseLines f rest (st.push (headingOf line)) = _
      rw [ih f (st.push (headingOf line)) (fun l hl => hall l (by simp [hl]))
        (by simpa using Nat.lt_succ_iff.mp (Nat.lt_of_lt_of_le (Nat.lt_succ_self _) hlen))]
      simp [PState.push, headingOf]

/-- C2.  For an input all of whose lines begin with the heading marker,
the parser emits exactly one heading block per line, in order; the depth
of each block is the number of leading markers, capped at 9. -/
theorem heading_lines_parse :
    ∀ content : String,
      (∀ l ∈ pySplitChar content '\n', strStarts l "#" = true) →
      (∀ (fuel : Nat) (line : String) (rest : List String) (st : PState),
        strStarts line "#" = true →
        parseLines (fuel + 1) (line :: rest) st =
          parseLines fuel rest (st.push (headingOf line))) ∧
      (parse content).blocks = (pySplitChar content '\n').map headingOf ∧
      (parse content).blocks.length = (pySplitChar content '\n').length ∧
      ∀ l ∈ pySplitChar content '\n',
        headingDepth (headingOf l) = some (min (hashCount l) 9) ∧
        min (hashCount l) 9 ≤ 9 ∧
        (hashCount l ≤ 9 → min (hashCount l) 9 = hashCount l) := by
  intro content hall
  refine And.intro ?_ ?_
  · intro fuel line rest st hline
    rw [parseLines, if_pos hline]
    rfl
  have h := parseLines_headings (pySplitChar content '\n')
    ((pySplitChar content '\n').length + 1) ⟨[], [], []⟩ hall (by omega)
  refine ⟨?_, ?_, ?_⟩
  · rw [parse]
    rw [h]
    simp
  · rw [parse]
    rw [h]
    simp
  · intro l _
    exact ⟨rfl, Nat.min_le_right _ _, fun h9 => Nat.min_eq_left h9⟩

/-- C2, witness: a three-line input at depths 1, 3 and (capped) 9. -/
theorem heading_lines_parse_witness :
    (∀ l ∈ pySplitChar "# a\n### b\n############ c" '\n', strStarts l "#" = true) ∧
    (parse "# a\n### b\n############ c").blocks =
      (pySplitChar "# a\n### b\n############ c" '\n').map headingOf :=
  ⟨by decide, (heading_lines_parse "# a\n### b\n############ c" (by decide)).2.1⟩

/-! ## C3: a code fence with no closing fence -/

theorem fence_not_hash {s : String} (h : strStarts s "```" = true) :
    strStarts s "#" = false := by
  unfold strStarts at h ⊢
  have h3 : "```".toList = backtickChar :: backtickChar :: [backtickChar] := by decide
  have h1 : "#".toList = ['#'] := by decide
  rw [h3] at h
  rw [h1]
  rcases hs : s.toList with _ | ⟨c, t⟩
  · rw [hs] at h
    exact absurd h (by decide)
  · rw [hs] at h
    simp only [List.isPrefixOf] at h ⊢
    rcases (Bool.and_eq_true _ _).mp h with ⟨hc, -⟩
    have : c = backtickChar := (beq_iff_eq.mp hc).symm
    subst this
    simp
    decide

/-- C3.  When the opening fence has no matching closing fence, the whole
remainder of the input becomes the content of a single code block,
newline-joined (hence newlines preserved); an empty language tag defaults
to plain text, whose numeric code is 47. -/
theorem unclosed_fence_code_block :
    ∀ (content fence : String) (rest : List String),
      pySplitChar content '\n' = fence :: rest →
      strStarts fence "```" = true →
      (∀ l ∈ rest, strStarts l "```" = false) →
      parse content =
        ⟨[createCodeBlock (joinNL rest)
            (if (pyStrip (fence.drop 3)).isEmpty then "plain_text"
             else pyStrip (fence.drop 3))], [], []⟩ ∧
      ((pyStrip (fence.drop 3)).isEmpty = true →
        parse content = ⟨[Block.code (joinNL rest) 47], [], []⟩) := by
  intro content fence rest hsplit hfence hrest
  have htake : rest.takeWhile (fun l => !strStarts l "```") = rest :=
    List.takeWhile_eq_self_iff.mpr (fun l hl => by simp [hrest l hl])
  have hdrop : rest.dropWhile (fun l => !strStarts l "```") = [] :=
    List.dropWhile_eq_nil_iff.mpr (fun l hl => by simp [hrest l hl])
  have hmain : parse content =
      ⟨[createCodeBlock (joinNL rest)
          (if (pyStrip (fence.drop 3)).isEmpty then "plain_text"
           else pyStrip (fence.drop 3))], [], []⟩ := by
    rw [parse, hsplit]
    simp only [List.length_cons]
    rw [parseLines, if_neg (by simp [fence_not_hash hfence]), if_pos hfence]
    rw [htake, hdrop]
    simp only [List.drop_nil]
    cases rest.length + 1 with
    | zero => simp [parseLines, PState.push]
    | succ n => simp [parseLines, PState.push]
  refine ⟨hmain, fun hempty => ?_⟩
  rw [hmain, hempty]
  simp [createCodeBlock]
  decide

/-- C3, witness: an unclosed fence with no language tag followed by two
content lines. -/
theorem unclosed_fence_code_block_witness :
    pySplitChar "```\nfoo\nbar" '\n' = "```" :: ["foo", "bar"] ∧
    parse "```\nfoo\nbar" = ⟨[Block.code (joinNL ["foo", "bar"]) 47], [], []⟩ :=
  ⟨by decide,
    (unclosed_fence_code_block "```\nfoo\nbar" "```" ["foo", "bar"] (by decide)
      (by decide) (by decide)).2 (by decide)⟩

/-! ## The parse-loop invariant (for C4 and C10) -/

/-- Rows collected by `_parse_table` all fail the all-alignment-cells
test, since alignment rows are skipped, not collected. -/
theorem parseTableAux_rows :
    ∀ lines : List String, ∀ row ∈ (parseTableAux lines).1,
      row.all isAlignCell = false := by
  intro lines
  induction lines with
  | nil => intro row h; exact absurd h (by simp [parseTableAux])
  | cons l ls ih =>
    intro row h
    rw [parseTableAux] at h
    split at h
    · split at h
      · exact absurd h (by simp)
      · split at h
        · exact ih row h
        · rcases List.mem_cons.mp h with h1 | h1
          · subst h1
            rename_i hna
            exact Bool.eq_false_iff.mpr hna
          · exact ih row h1
    · exact absurd h (by simp)

/-- The parse-loop invariant: pending-image entries point at image
placeholder blocks with the recorded path, pending-table entries point at
table placeholder blocks with the recorded grid and derived dimensions,
every placeholder block in the list is registered in the corresponding
pending list, and every table placeholder is well-formed (no alignment
rows, dimensions derived from the grid). -/
def PInv (st : PState) : Prop :=
  (∀ e ∈ st.pendingImages,
    st.blocks[e.1]? = some (Block.imagePlaceholder e.2.1 e.2.2)) ∧
  (∀ e ∈ st.pendingTables,
    st.blocks[e.1]? = some (Block.tablePlaceholder e.2 e.2.length (maxLen e.2))) ∧
  (∀ (i : Nat) (b : Block), st.blocks[i]? = some b → isImagePH b = true →
    ∃ pu, (i, pu) ∈ st.pendingImages) ∧
  (∀ (i : Nat) (b : Block), st.blocks[i]? = some b → isTablePH b = true →
    ∃ d, (i, d) ∈ st.pendingTables) ∧
  (∀ b ∈ st.blocks, ∀ d r c, b = Block.tablePlaceholder d r c →
    (∀ row ∈ d, row.all isAlignCell = false) ∧ r = d.length ∧ c = maxLen d)

theorem PInv.pushMany {st : PState} (hst : PInv st) (bs : List Block)
    (hbs : ∀ b ∈ bs, isPlaceholder b = false) : PInv (st.pushMany bs) := by
  obtain ⟨I1, I2, I3, I4, I5⟩ := hst
  refine ⟨?_, ?_, ?_, ?_, ?_⟩
  · intro e he
    have h := I1 e he
    have hlt := (List.getElem?_eq_some_iff.mp h).1
    show (st.blocks ++ bs)[e.1]? = _
    rw [List.getElem?_append_left hlt]
    exact h
  · intro e he
    have h := I2 e he
    have hlt := (List.getElem?_eq_some_iff.mp h).1
    show (st.blocks ++ bs)[e.1]? = _
    rw [List.getElem?_append_left hlt]
    exact h
  · intro i b hb himg
    by_cases hi : i < st.blocks.length
    · rw [show (st.pushMany bs).blocks = st.blocks ++ bs from rfl,
        List.getElem?_append_left hi] at hb
      exact I3 i b hb himg
    · rw [show (st.pushMany bs).blocks = st.blocks ++ bs from rfl,
        List.getElem?_append_right (Nat.le_of_not_lt hi)] at hb
      have hfalse := hbs b (List.getElem?_mem hb)
      rw [isPlaceholder, himg] at hfalse
      exact absurd hfalse (by simp)
  · intro i b hb htbl
    by_cases hi : i < st.blocks.length
    · rw [show (st.pushMany bs).blocks = st.blocks ++ bs from rfl,
        List.getElem?_append_left hi] at hb
      exact I4 i b hb htbl
    · rw [show (st.pushMany bs).blocks = st.blocks ++ bs from rfl,
        List.getElem?_append_right (Nat.le_of_not_lt hi)] at hb
      have hfalse := hbs b (List.getElem?_mem hb)
      rw [isPlaceholder, htbl] at hfalse
      exact absurd hfalse (by simp)
  · intro b hb d r c heq
    rcases List.mem_append.mp hb with h1 | h1
    · exact I5 b h1 d r c heq
    · exfalso
      have hfalse := hbs b h1
      subst heq
      simp [isPlaceholder, isImagePH, isTablePH] at hfalse

theorem PInv.push {st : PState} (hst : PInv st) (b : Block)
    (hb : isPlaceholder b = false) : PInv (st.push b) :=
  hst.pushMany [b] (by simpa using hb)

theorem PInv.pushImage {st : PState} (hst : PInv st) (path : String) :
    PInv (st.pushImage path) := by
  obtain ⟨I1, I2, I3, I4, I5⟩ := hst
  set u := (strStarts path "http://" || strStarts path "https://") with hu
  set ph := Block.imagePlaceholder path u with hph
  refine ⟨?_, ?_, ?_, ?_, ?_⟩
  · intro e he
    rcases List.mem_append.mp he with h1 | h1
    · have h := I1 e h1
      have hlt := (List.getElem?_eq_some_iff.mp h).1
      show (st.blocks ++ [ph])[e.1]? = _
      rw [List.getElem?_append_left hlt]
      exact h
    · have he2 : e = (st.blocks.length, path, u) := by simpa using h1
      subst he2
      show (st.blocks ++ [ph])[st.blocks.length]? = _
      rw [List.getElem?_concat_length]
  · intro e he
    have h := I2 e he
    have hlt := (List.getElem?_eq_some_iff.mp h).1
    show (st.blocks ++ [ph])[e.1]? = _
    rw [List.getElem?_append_left hlt]
    exact h
  · intro i b hb himg
    by_cases hi : i < st.blocks.length
    · rw [show (st.pushImage path).blocks = st.blocks ++ [ph] from rfl,
        List.getElem?_append_left hi] at hb
      obtain ⟨pu, hmem⟩ := I3 i b hb himg
      exact ⟨pu, List.mem_append_left _ hmem⟩
    · exact ⟨(path, u), by
        rw [show (st.pushImage path).blocks = st.blocks ++ [ph] from rfl,
          List.getElem?_append_right (Nat.le_of_not_lt hi)] at hb
        have hieq : i = st.blocks.length := by
          rw [List.getElem?_eq_some_iff] at hb
          obtain ⟨hlt2, -⟩ := hb
          simp at hlt2
          omega
        subst hieq
        exact List.mem_append_right _ (by simp)⟩
  · intro i b hb htbl
    by_cases hi : i < st.blocks.length
    · rw [show (st.pushImage path).blocks = st.blocks ++ [ph] from rfl,
        List.getElem?_append_left hi] at hb
      exact I4 i b hb htbl
    · exfalso
      rw [show (st.pushImage path).blocks = st.blocks ++ [ph] from rfl,
        List.getElem?_append_right (Nat.le_of_not_lt hi)] at hb
      have hb2 : b = ph := by simpa using List.getElem?_mem hb
      subst hb2
      rw [hph] at htbl
      exact absurd htbl (by simp [isTablePH])
  · intro b hb d r c heq
    rcases List.mem_append.mp hb with h1 | h1
    · exact I5 b h1 d r c heq
    · exfalso
      have hb2 : b = ph := by simpa using h1
      subst hb2
      rw [hph] at heq
      exact Block.noConfusion heq

theorem PInv.pushTable {st : PState} (hst : PInv st) (d : List (List String))
    (hrows : ∀ row ∈ d, row.all isAlignCell = false) : PInv (st.pushTable d) := by
  obtain ⟨I1, I2, I3, I4, I5⟩ := hst
  set ph := Block.tablePlaceholder d d.length (maxLen d) with hph
  refine ⟨?_, ?_, ?_, ?_, ?_⟩
  · intro e he
    have h := I1 e he
    have hlt := (List.getElem?_eq_some_iff.mp h).1
    show (st.blocks ++ [ph])[e.1]? = _
    rw [List.getElem?_append_left hlt]
    exact h
  · intro e he
    rcases List.mem_append.mp he with h1 | h1
    · have h := I2 e h1
      have hlt := (List.getElem?_eq_some_iff.mp h).1
      show (st.blocks ++ [ph])[e.1]? = _
      rw [List.getElem?_append_left hlt]
      exact h
    · have he2 : e = (st.blocks.length, d) := by simpa using h1
      subst he2
      show (st.blocks ++ [ph])[st.blocks.length]? = _
      rw [List.getElem?_concat_length]
  · intro i b hb himg
    by_cases hi : i < st.blocks.length
    · rw [show (st.pushTable d).blocks = st.blocks ++ [ph] from rfl,
        List.getElem?_append_left hi] at hb
      exact I3 i b hb himg
    · exfalso
      rw [show (st.pushTable d).blocks = st.blocks ++ [ph] from rfl,
        List.getElem?_append_right (Nat.le_of_not_lt hi)] at hb
      have hb2 : b = ph := by simpa using List.getElem?_mem hb
      subst hb2
      rw [hph] at himg
      exact absurd himg (by simp [isImagePH])
  · intro i b hb htbl
    by_cases hi : i < st.blocks.length
    · rw [show (st.pushTable d).blocks = st.blocks ++ [ph] from rfl,
        List.getElem?_append_left hi] at hb
      obtain ⟨d', hmem⟩ := I4 i b hb htbl
      exact ⟨d', List.mem_append_left _ hmem⟩
    · exact ⟨d, by
        rw [show (st.pushTable d).blocks = st.blocks ++ [ph] from rfl,
          List.getElem?_append_right (Nat.le_of_not_lt hi)] at hb
        have hzero : i = st.blocks.length := by
          rw [List.getElem?_eq_some_iff] at hb
          obtain ⟨hlt2, -⟩ := hb
          simp at hlt2
          omega
        subst hzero
        exact List.mem_append_right _ (by simp)⟩
  · intro b hb d' r c heq
    rcases List.mem_append.mp hb with h1 | h1
    · exact I5 b h1 d' r c heq
    · have hb2 : b = ph := by simpa using h1
      subst hb2
      rw [hph] at heq
      injection heq with h1 h2 h3
      subst h1
      exact ⟨hrows, h2.symm, h3.symm⟩

theorem isPlaceholder_createTextBlock (t : String) :
    isPlaceholder (createTextBlock t) = false := rfl

theorem parseOther_inv {st : PState} (hst : PInv st) (line : String)
    (rest : List String) : PInv (parseOther line rest st).1 := by
  unfold parseOther
  split
  · exact hst.pushImage _
  · split
    · exact hst.push (createQuoteBlock _) (by rfl)
    · split
      · refine hst.pushMany _ ?_
        intro b hb
        obtain ⟨l, -, hbl⟩ := List.mem_map.mp hb
        rw [← hbl]
        rfl
      · split
        · refine hst.pushMany _ ?_
          intro b hb
          obtain ⟨l, -, hbl⟩ := List.mem_map.mp hb
          rw [← hbl]
          rfl
        · split
          · exact hst.push createDividerBlock (by rfl)
          · split
            · exact hst
            · exact hst.push (createTextBlock _) (by rfl)

theorem parseLines_inv :
    ∀ (fuel : Nat) (lines : List String) (st : PState),
      PInv st → PInv (parseLines fuel lines st) := by
  intro fuel
  induction fuel with
  | zero => intro lines st hst; exact hst
  | succ f ih =>
    intro lines st hst
    match lines with
    | [] => exact hst
    | line :: rest =>
      rw [parseLines]
      split
      · exact ih _ _ (hst.push (createHeadingBlock _ _) (by rfl))
      · split
        · exact ih _ _ (hst.push (createCodeBlock _ _) (by rfl))
        · split
          · split
            · exact ih _ _ (parseOther_inv hst line rest)
            · exact ih _ _ (hst.pushTable _ (parseTableAux_rows (line :: rest)))
          · exact ih _ _ (parseOther_inv hst line rest)

/-- The invariant holds of every parse result. -/
theorem parse_inv (content : String) : PInv (parse content) :=
  parseLines_inv _ _ _ ⟨by simp, by simp, by simp, by simp, by simp⟩

/-! ## C4: alignment rows and column counts -/

/-- C4.  Every table grid the parser emits is free of alignment rows (no
row has all cells matching the dash/colon pattern), its stored row count
is the number of data rows, and its stored column count is the maximum
cell count across the data rows. -/
theorem table_grid_wellformed :
    ∀ (content : String) (d : List (List String)) (r c : Nat),
      Block.tablePlaceholder d r c ∈ (parse content).blocks →
      (∀ row ∈ d, row.all isAlignCell = false) ∧ r = d.length ∧ c = maxLen d := by
  intro content d r c hmem
  exact (parse_inv content).2.2.2.2 _ hmem d r c rfl

/-- C4, witness: a table with a header row, an alignment row and one data
row; the alignment row is dropped and the column count is 2. -/
theorem table_grid_wellformed_witness :
    Block.tablePlaceholder [["a", "b"], ["1", "2"]] 2 2 ∈
        (parse "|a|b|\n|---|---|\n|1|2|").blocks ∧
      (∀ row ∈ [["a", "b"], ["1", "2"]], row.all isAlignCell = false) ∧
      2 = [["a", "b"], ["1", "2"]].length ∧
      2 = maxLen [["a", "b"], ["1", "2"]] :=
  ⟨by decide,
    table_grid_wellformed "|a|b|\n|---|---|\n|1|2|" [["a", "b"], ["1", "2"]] 2 2
      (by decide)⟩

/-! ## C10: pending lists point at placeholders; batches are clean -/

theorem appendBatch_not_mem_imageEvents (o : WOracles) (i : Nat) (path : String)
    (batch : List Block) : WEvent.appendBatch batch ∉ imageEvents o i path := by
  intro h
  unfold imageEvents at h
  rcases List.mem_cons.mp h with h1 | h1
  · exact WEvent.noConfusion h1
  · rcases hc : o.createImageRes i with _ | bid
    · rw [hc] at h1
      exact absurd h1 (by simp)
    · rw [hc] at h1
      rcases List.mem_cons.mp h1 with h2 | h2
      · exact WEvent.noConfusion h2
      · rcases hu : o.uploadRes i with _ | tok
        · rw [hu] at h2
          exact absurd h2 (by simp)
        · rw [hu] at h2
          have h3 : WEvent.appendBatch batch = WEvent.replaceImageToken bid tok := by
            simpa using h2
          exact WEvent.noConfusion h3

theorem appendBatch_not_mem_tableEvents (o : WOracles) (i : Nat)
    (d : List (List String)) (batch : List Block) :
    WEvent.appendBatch batch ∉ tableEvents o i d := by
  intro h
  unfold tableEvents at h
  split at h
  · rcases List.mem_cons.mp h with h1 | h1
    · exact WEvent.noConfusion h1
    · rcases hc : o.createTableRes i with _ | tid
      · rw [hc] at h1
        exact absurd h1 (by simp)
      · rw [hc] at h1
        have h3 : WEvent.appendBatch batch = WEvent.fillTable tid d := by simpa using h1
        exact WEvent.noConfusion h3
  · exact absurd h (by simp)

theorem mem_flushBatch {batch bs : List Block}
    (h : WEvent.appendBatch bs ∈ flushBatch batch) : bs = batch := by
  unfold flushBatch at h
  split at h
  · exact absurd h (by simp)
  · have h2 : WEvent.appendBatch bs = WEvent.appendBatch batch := by simpa using h
    injection h2

theorem mapOfPending_ne_none {α : Type} {l : List (Nat × α)} {i : Nat} {x : α}
    (h : (i, x) ∈ l) : mapOfPending l i ≠ none := by
  unfold mapOfPending
  intro hnone
  rw [Option.map_eq_none'] at hnone
  have hsome : (l.reverse.find? (fun p => p.1 == i)).isSome = true :=
    List.find?_isSome.mpr ⟨(i, x), List.mem_reverse.mpr h, by simp⟩
  rw [hnone] at hsome
  exact Bool.noConfusion hsome

/-- Every batch the walk appends consists of blocks whose positions were
in neither map; given that those are never placeholders, batches are
placeholder-free. -/
theorem writeLoop_batches (o : WOracles) (imap : Nat → Option (String × Bool))
    (tmap : Nat → Option (List (List String))) :
    ∀ (l : List (Nat × Block)) (batch : List Block),
      (∀ p ∈ l, imap p.1 = none → tmap p.1 = none → isPlaceholder p.2 = false) →
      (∀ b ∈ batch, isPlaceholder b = false) →
      ∀ bs, WEvent.appendBatch bs ∈ writeLoop o imap tmap l batch →
        ∀ b ∈ bs, isPlaceholder b = false := by
  intro l
  induction l with
  | nil =>
    intro batch _ hbatch bs hbs b hb
    rw [writeLoop] at hbs
    rw [mem_flushBatch hbs] at hb
    exact hbatch b hb
  | cons p t ih =>
    obtain ⟨i, pb⟩ := p
    intro batch hl hbatch bs hbs b hb
    rw [writeLoop] at hbs
    rcases hi : imap i with _ | pu
    · rw [hi] at hbs
      rcases ht : tmap i with _ | d
      · rw [ht] at hbs
        refine ih (batch ++ [pb]) (fun q hq => hl q (by simp [hq])) ?_ bs hbs b hb
        intro bx hbx
        rcases List.mem_append.mp hbx with h1 | h1
        · exact hbatch bx h1
        · have hbe : bx = pb := by simpa using h1
          subst hbe
          exact hl (i, bx) (by simp) hi ht
      · rw [ht] at hbs
        rcases List.mem_append.mp hbs with h1 | h1
        · rcases List.mem_append.mp h1 with h2 | h2
          · rw [mem_flushBatch h2] at hb
            exact hbatch b hb
          · exact absurd h2 (appendBatch_not_mem_tableEvents o i d bs)
        · exact ih [] (fun q hq => hl q (by simp [hq])) (by simp) bs h1 b hb
    · rw [hi] at hbs
      rcases List.mem_append.mp hbs with h1 | h1
      · rcases List.mem_append.mp h1 with h2 | h2
        · rw [mem_flushBatch h2] at hb
          exact hbatch b hb
        · exact absurd h2 (appendBatch_not_mem_imageEvents o i pu.1 bs)
      · exact ih [] (fun q hq => hl q (by simp [hq])) (by simp) bs h1 b hb

/-- C10.  After any parse, each pending-image entry `(i, path, is_url)`
points at the image placeholder block at position `i`, each pending-table
entry `(i, data)` points at the table placeholder block at position `i`;
consequently the interleaved writer, which handles exactly the recorded
positions specially, never puts a placeholder block into an ordinary
append batch. -/
theorem pending_placeholder_invariant :
    ∀ (content : String) (o : WOracles),
      (∀ e ∈ (parse content).pendingImages,
        (parse content).blocks[e.1]? = some (Block.imagePlaceholder e.2.1 e.2.2)) ∧
      (∀ e ∈ (parse content).pendingTables,
        (parse content).blocks[e.1]? =
          some (Block.tablePlaceholder e.2 e.2.length (maxLen e.2))) ∧
      (∀ bs, WEvent.appendBatch bs ∈
          writeContent o (parse content).blocks (parse content).pendingImages
            (parse content).pendingTables →
        ∀ b ∈ bs, isPlaceholder b = false) := by
  intro content o
  obtain ⟨I1, I2, I3, I4, -⟩ := parse_inv content
  refine ⟨I1, I2, ?_⟩
  intro bs hbs b hb
  unfold writeContent at hbs
  refine writeLoop_batches o _ _ _ [] ?_ (by simp) bs hbs b hb
  intro p hp hi ht
  have hget : (parse content).blocks[p.1]? = some p.2 :=
    List.mem_enum_iff_getElem?.mp hp
  cases himg : isImagePH p.2
  · cases htbl : isTablePH p.2
    · simp [isPlaceholder, himg, htbl]
    · exfalso
      obtain ⟨d, hmem⟩ := I4 p.1 p.2 hget htbl
      exact (mapOfPending_ne_none hmem) ht
  · exfalso
    obtain ⟨pu, hmem⟩ := I3 p.1 p.2 hget himg
    exact (mapOfPending_ne_none hmem) hi

/-- C10, witness: an input with a paragraph, an image reference and a
table; the pending-image entry at position 1 points at the placeholder. -/
theorem pending_placeholder_invariant_witness :
    (1, "http://e/i.png", true) ∈
        (parse "a\n![x](http://e/i.png)\n|p|q|\n|1|2|\nb").pendingImages ∧
      (parse "a\n![x](http://e/i.png)\n|p|q|\n|1|2|\nb").blocks[1]? =
        some (Block.imagePlaceholder "http://e/i.png" true) :=
  ⟨by decide,
    (pending_placeholder_invariant "a\n![x](http://e/i.png)\n|p|q|\n|1|2|\nb"
      ⟨fun _ => none, fun _ => none, fun _ => none⟩).1
      (1, "http://e/i.png", true) (by decide)⟩

/-! ## C1: the interleaved write preserves document order -/

theorem writeLoop_span (o : WOracles) (imap : Nat → Option (String × Bool))
    (tmap : Nat → Option (List (List String))) :
    ∀ (l : List (Nat × Block)) (batch : List Block),
      writeLoop o imap tmap l batch =
        match l.dropWhile (fun p => !flaggedAt imap tmap p.1) with
        | [] =>
          flushBatch (batch ++
            (l.takeWhile (fun p => !flaggedAt imap tmap p.1)).map (fun p => p.2))
        | sp :: rest =>
          flushBatch (batch ++
              (l.takeWhile (fun p => !flaggedAt imap tmap p.1)).map (fun p => p.2)) ++
            specialEvents o imap tmap sp.1 ++ writeLoop o imap tmap rest [] := by
  intro l
  induction l with
  | nil => intro batch; simp [writeLoop]
  | cons p t ih =>
    obtain ⟨i, pb⟩ := p
    intro batch
    rcases hi : imap i with _ | pu
    · rcases ht : tmap i with _ | d
      · have hflag : flaggedAt imap tmap i = false := by simp [flaggedAt, hi, ht]
        rw [writeLoop, hi, ht]
        rw [List.dropWhile_cons, List.takeWhile_cons]
        rw [hflag]
        rw [ih (batch ++ [pb])]
        rcases hd : t.dropWhile (fun p => !flaggedAt imap tmap p.1) with _ | ⟨sp, rest⟩
        · simp
        · simp
      · have hflag : flaggedAt imap tmap i = true := by simp [flaggedAt, ht]
        have hspec : specialEvents o imap tmap i = tableEvents o i d := by
          unfold specialEvents
          rw [hi, ht]
        rw [writeLoop, hi, ht]
        rw [List.dropWhile_cons, List.takeWhile_cons]
        rw [hflag]
        simp [hspec]
    · have hflag : flaggedAt imap tmap i = true := by simp [flaggedAt, hi]
      have hspec : specialEvents o imap tmap i = imageEvents o i pu.1 := by
        unfold specialEvents
        rw [hi]
      rw [writeLoop, hi]
      rw [List.dropWhile_cons, List.takeWhile_cons]
      rw [hflag]
      simp [hspec]

theorem writeLoop_eq_spec (o : WOracles) (imap : Nat → Option (String × Bool))
    (tmap : Nat → Option (List (List String))) :
    ∀ (fuel : Nat) (l : List (Nat × Block)), l.length < fuel →
      writeLoop o imap tmap l [] = orderedWriteSpec o imap tmap fuel l := by
  intro fuel
  induction fuel with
  | zero => intro l h; omega
  | succ f ih =>
    intro l hl
    rw [orderedWriteSpec]
    rw [writeLoop_span o imap tmap l []]
    rcases hd : l.dropWhile (fun p => !flaggedAt imap tmap p.1) with _ | ⟨sp, rest⟩
    · rw [hd]
      simp
    · rw [hd]
      have hlen : rest.length < f := by
        have h1 : (sp :: rest).length ≤ l.length := by
          rw [← hd]
          exact (List.dropWhile_sublist _).length_le
        simp at h1
        omega
      simp [ih rest hlen]

/-- C1.  The interleaved write procedure equals the specification-side
ordered write: walking the blocks by position, the accumulated
ordinary-block batch is flushed as one append call immediately before the
special calls of every position flagged in the image or table map, and
the final accumulated batch is flushed at the end, so ordinary batches
appear in the trace exactly between the special calls of the flagged
positions on either side, never out of position. -/
theorem interleaved_write_order (o : WOracles) (blocks : List Block)
    (pimgs : List (Nat × String × Bool)) (ptbls : List (Nat × List (List String))) :
    writeContent o blocks pimgs ptbls =
      orderedWriteSpecTop o (mapOfPending pimgs) (mapOfPending ptbls) blocks := by
  unfold writeContent orderedWriteSpecTop
  exact writeLoop_eq_spec o _ _ (blocks.length + 1) blocks.enum
    (by simp [List.enum_length])

/-! ## C6: batch chunking in `append_blocks` -/

theorem appendChunksGo_eq (codes : Nat → Nat) :
    ∀ (chunks : List (List Block)) (k : Nat),
      appendChunksGo codes k chunks =
        match firstBad (fun j => codes (k + j)) chunks.length with
        | none => (true, chunks)
        | some j => (false, chunks.take (j + 1)) := by
  intro chunks
  induction chunks with
  | nil => intro k; simp [appendChunksGo, firstBad]
  | cons chunk rest ih =>
    intro k
    rw [appendChunksGo]
    by_cases hc : codes k ≠ 0
    · rw [if_pos hc]
      have hfb : firstBad (fun j => codes (k + j)) (rest.length + 1) = some 0 := by
        rw [firstBad]
        rw [if_pos (by simpa using hc)]
      rw [List.length_cons, hfb]
      simp
    · rw [if_neg hc]
      have hc0 : codes k = 0 := not_not.mp hc
      rw [ih (k + 1)]
      have hfb : firstBad (fun j => codes (k + j)) (rest.length + 1) =
          (firstBad (fun j => codes (k + 1 + j)) rest.length).map (· + 1) := by
        rw [firstBad]
        rw [if_neg (by simpa using hc0)]
        have harg : (fun j => codes (k + (j + 1))) = (fun j => codes (k + 1 + j)) := by
          funext j
          congr 1
          omega
        rw [harg]
      rw [List.length_cons, hfb]
      rcases firstBad (fun j => codes (k + 1 + j)) rest.length with _ | j
      · simp
      · simp

theorem firstBad_eq_none_iff :
    ∀ (n : Nat) (f : Nat → Nat), firstBad f n = none ↔ ∀ j < n, f j = 0 := by
  intro n
  induction n with
  | zero => intro f; simp [firstBad]
  | succ n ih =>
    intro f
    rw [firstBad]
    by_cases h0 : f 0 ≠ 0
    · rw [if_pos h0]
      constructor
      · intro h; exact Option.noConfusion h
      · intro h; exact absurd (h 0 (by omega)) h0
    · rw [if_neg h0]
      have hf0 : f 0 = 0 := not_not.mp h0
      rw [Option.map_eq_none']
      rw [ih (fun j => f (j + 1))]
      constructor
      · intro h j hj
        match j with
        | 0 => exact hf0
        | j' + 1 => exact h j' (by omega)
      · intro h j hj
        exact h (j + 1) (by omega)

theorem firstBad_eq_some :
    ∀ (n : Nat) (f : Nat → Nat) (j : Nat), firstBad f n = some j →
      j < n ∧ f j ≠ 0 ∧ ∀ j' < j, f j' = 0 := by
  intro n
  induction n with
  | zero => intro f j h; exact Option.noConfusion h
  | succ n ih =>
    intro f j h
    rw [firstBad] at h
    by_cases h0 : f 0 ≠ 0
    · rw [if_pos h0] at h
      have hj : j = 0 := by injection h with h2; omega
      subst hj
      exact ⟨by omega, h0, fun j' hj' => by omega⟩
    · rw [if_neg h0] at h
      have hf0 : f 0 = 0 := not_not.mp h0
      rw [Option.map_eq_some'] at h
      obtain ⟨j0, hj0, hjeq⟩ := h
      obtain ⟨hlt, hne, hall⟩ := ih (fun j => f (j + 1)) j0 hj0
      subst hjeq
      refine ⟨by omega, hne, ?_⟩
      intro j' hj'
      match j' with
      | 0 => exact hf0
      | j'' + 1 => exact hall j'' (by omega)

theorem chunkList_mem (l : List Block) :
    ∀ c ∈ chunkList l, c.length ≤ 50 ∧ c ≠ [] := by
  intro c hc
  unfold chunkList at hc
  obtain ⟨i, hi, hceq⟩ := List.mem_map.mp hc
  have hilt : i < (l.length + 49) / 50 := List.mem_range.mp hi
  have hmul : 50 * ((l.length + 49) / 50) ≤ l.length + 49 := Nat.mul_div_le _ _
  have hmul2 : 50 * (i + 1) ≤ 50 * ((l.length + 49) / 50) :=
    Nat.mul_le_mul_left 50 hilt
  have hlt : 50 * i < l.length := by omega
  subst hceq
  constructor
  · simpa using List.length_take_le 50 _
  · have hlen : ((l.drop (50 * i)).take 50).length = min 50 (l.length - 50 * i) := by
      simp
    intro hnil
    rw [hnil] at hlen
    simp at hlen
    omega

/-- C6.  `append_blocks` posts the batch as sequential chunks of at most
50 blocks; an empty batch succeeds with no request; the posted chunks are
always an initial portion of the chunk sequence; success means every
chunk's status code was zero; on failure, the chunks before the first
failing one were already posted (and are not rolled back) together with
the failing chunk itself, and no later chunk is posted. -/
theorem append_blocks_chunking (codes : Nat → Nat) (blocks : List Block) :
    (blocks = [] → append_blocks codes blocks = (true, [])) ∧
    (∀ chunk ∈ (append_blocks codes blocks).2, chunk.length ≤ 50 ∧ chunk ≠ []) ∧
    (∃ k, (append_blocks codes blocks).2 = (chunkList blocks).take k) ∧
    ((append_blocks codes blocks).1 = true ↔
      ∀ j < (chunkList blocks).length, codes j = 0) ∧
    ((append_blocks codes blocks).1 = false →
      ∃ j < (chunkList blocks).length, codes j ≠ 0 ∧ (∀ j' < j, codes j' = 0) ∧
        (append_blocks codes blocks).2 = (chunkList blocks).take (j + 1)) := by
  by_cases hempty : blocks = []
  · subst hempty
    have hcl : chunkList ([] : List Block) = [] := rfl
    refine ⟨fun _ => by simp [append_blocks], ?_, ⟨0, by simp [append_blocks]⟩, ?_, ?_⟩
    · intro chunk hchunk
      simp [append_blocks] at hchunk
    · simp [append_blocks, hcl]
    · simp [append_blocks]
  · have hne : blocks.isEmpty = false := by
      cases blocks with
      | nil => exact absurd rfl hempty
      | cons a t => rfl
    have happ : append_blocks codes blocks = appendChunksGo codes 0 (chunkList blocks) := by
      unfold append_blocks
      rw [hne]
      simp
    have hmaster := appendChunksGo_eq codes (chunkList blocks) 0
    have hfz : (fun j => codes (0 + j)) = codes := by
      funext j
      simp
    rw [hfz] at hmaster
    rcases hfb : firstBad codes (chunkList blocks).length with _ | j
    · rw [hfb] at hmaster
      rw [happ, hmaster]
      refine ⟨fun h => absurd h hempty, ?_, ⟨(chunkList blocks).length, by simp⟩, ?_, ?_⟩
      · intro chunk hchunk
        exact chunkList_mem blocks chunk hchunk
      · constructor
        · intro _
          exact (firstBad_eq_none_iff _ codes).mp hfb
        · intro _
          rfl
      · intro hfalse
        exact absurd hfalse (by simp)
    · rw [hfb] at hmaster
      rw [happ, hmaster]
      obtain ⟨hjlt, hjne, hjall⟩ := firstBad_eq_some _ codes j hfb
      refine ⟨fun h => absurd h hempty, ?_, ⟨j + 1, rfl⟩, ?_, ?_⟩
      · intro chunk hchunk
        exact chunkList_mem blocks chunk ((List.take_sublist _ _).subset hchunk)
      · constructor
        · intro h
          exact absurd h (by simp)
        · intro hall
          exact absurd (hall j hjlt) hjne
      · intro _
        exact ⟨j, hjlt, hjne, hjall, rfl⟩

/-- C6, witness: a 60-block batch with all chunks succeeding reports
success. -/
theorem append_blocks_chunking_witness :
    (append_blocks (fun _ => 0) (List.replicate 60 Block.divider)).1 = true :=
  (append_blocks_chunking (fun _ => 0) (List.replicate 60 Block.divider)).2.2.2.1.mpr
    (by decide)

/-! ## C7: row-major table fill -/

theorem mem_takeWhile_range' :
    ∀ (n s : Nat) (p : Nat → Bool) (c : Nat),
      c ∈ (List.range' s n).takeWhile p ↔
        s ≤ c ∧ c < s + n ∧ ∀ d, s ≤ d → d ≤ c → p d = true := by
  intro n
  induction n with
  | zero =>
    intro s p c
    simp
    omega
  | succ n ih =>
    intro s p c
    rw [List.range'_succ, List.takeWhile_cons]
    by_cases hp : p s = true
    · rw [if_pos hp]
      rw [List.mem_cons, ih (s + 1) p c]
      constructor
      · rintro (hceq | ⟨hle, hlt, hall⟩)
        · subst hceq
          exact ⟨Nat.le_refl _, by omega, fun d h1 h2 => by
            have : d = c := by omega
            subst this
            exact hp⟩
        · exact ⟨by omega, by omega, fun d h1 h2 => by
            by_cases hds : d = s
            · subst hds
              exact hp
            · exact hall d (by omega) h2⟩
      · rintro ⟨hle, hlt, hall⟩
        by_cases hcs : c = s
        · exact Or.inl hcs
        · exact Or.inr ⟨by omega, by omega, fun d h1 h2 => hall d (by omega) h2⟩
    · rw [if_neg hp]
      simp only [List.not_mem_nil, false_iff]
      rintro ⟨hle, hlt, hall⟩
      exact hp (hall s (Nat.le_refl _) hle)

theorem mem_takeWhile_range (n : Nat) (p : Nat → Bool) (c : Nat) :
    c ∈ (List.range n).takeWhile p ↔ c < n ∧ ∀ d ≤ c, p d = true := by
  rw [List.range_eq_range', mem_takeWhile_range' n 0 p c]
  constructor
  · rintro ⟨-, h2, h3⟩
    exact ⟨by omega, fun d hd => h3 d (by omega) hd⟩
  · rintro ⟨h1, h2⟩
    exact ⟨by omega, by omega, fun d _ hd => h2 d hd⟩

theorem mem_fillRowEvents (ok : Nat → Nat → Bool) (cells : List String)
    (cols : Nat) (r : Nat) (rowData : List String) (e : FillEvent) :
    e ∈ fillRowEvents ok cells cols r rowData ↔
      e.row = r ∧ e.col < cols ∧ r * cols + e.col < cells.length ∧
        e.col < rowData.length ∧ e.content = rowData.getD e.col "" ∧
        e.content ≠ "" ∧ e.cellId = cells.getD (r * cols + e.col) "" ∧
        e.ok = ok r e.col := by
  unfold fillRowEvents
  rw [List.mem_filterMap]
  constructor
  · rintro ⟨c, hc, hfc⟩
    rw [mem_takeWhile_range] at hc
    obtain ⟨hclt, hcall⟩ := hc
    have hidx : r * cols + c < cells.length := by
      have := hcall c (Nat.le_refl _)
      simpa using this
    split at hfc
    · split at hfc
      · rename_i hrow hcontent
        have he : e = ⟨r, c, cells.getD (r * cols + c) "", rowData.getD c "", ok r c⟩ :=
          (Option.some_inj.mp hfc).symm
        subst he
        exact ⟨rfl, hclt, hidx, hrow, rfl, hcontent, rfl, rfl⟩
      · exact Option.noConfusion hfc
    · exact Option.noConfusion hfc
  · rintro ⟨hrow, hcol, hidx, hlen, hcontent, hne, hcell, hok⟩
    refine ⟨e.col, ?_, ?_⟩
    · rw [mem_takeWhile_range]
      refine ⟨hcol, fun d hd => ?_⟩
      simp only [decide_eq_true_eq]
      omega
    · rw [if_pos hlen, if_pos (by rw [← hcontent]; exact hne)]
      obtain ⟨erow, ecol, ecell, econtent, eok⟩ := e
      simp only at hrow hcontent hcell hok
      subst hrow
      rw [hcontent, hcell, hok]

theorem fillRowEvents_row {ok : Nat → Nat → Bool} {cells : List String}
    {cols r : Nat} {rowData : List String} {e : FillEvent}
    (h : e ∈ fillRowEvents ok cells cols r rowData) : e.row = r :=
  ((mem_fillRowEvents ok cells cols r rowData e).mp h).1

theorem pairwise_filterMap_of {α β : Type} (R : α → α → Prop) (S : β → β → Prop)
    (f : α → Option β) :
    ∀ {l : List α}, l.Pairwise R →
      (∀ a b x y, R a b → f a = some x → f b = some y → S x y) →
      (l.filterMap f).Pairwise S := by
  intro l
  induction l with
  | nil => intro _ _; simp
  | cons a t ih =>
    intro hp hf
    rw [List.filterMap_cons]
    rcases List.pairwise_cons.mp hp with ⟨hhead, htail⟩
    rcases ha : f a with _ | x
    · exact ih htail hf
    · refine List.pairwise_cons.mpr ⟨?_, ih htail hf⟩
      intro y hy
      obtain ⟨b, hb, hfb⟩ := List.mem_filterMap.mp hy
      exact hf a b x y (hhead b hb) ha hfb

theorem fillRowEvents_pairwise (ok : Nat → Nat → Bool) (cells : List String)
    (cols : Nat) (r : Nat) (rowData : List String) :
    (fillRowEvents ok cells cols r rowData).Pairwise rowMajorLt := by
  unfold fillRowEvents
  refine pairwise_filterMap_of (fun a b => a < b) rowMajorLt _ ?_ ?_
  · exact List.Pairwise.sublist (List.takeWhile_sublist _) (List.pairwise_lt_range cols)
  · intro a b x y hab hfa hfb
    have hxa : x.col = a ∧ x.row = r := by
      split at hfa
      · split at hfa
        · obtain ⟨-, -⟩ := Option.some_inj.mp hfa
          rename_i hfa2
          rw [← Option.some_inj.mp hfa]
          exact ⟨rfl, rfl⟩
        · exact Option.noConfusion hfa
      · exact Option.noConfusion hfa
    have hyb : y.col = b ∧ y.row = r := by
      split at hfb
      · split at hfb
        · rw [← Option.some_inj.mp hfb]
          exact ⟨rfl, rfl⟩
        · exact Option.noConfusion hfb
      · exact Option.noConfusion hfb
    exact Or.inr ⟨by rw [hxa.2, hyb.2], by rw [hxa.1, hyb.1]; exact hab⟩

theorem fillRowEvents_map_call (ok ok' : Nat → Nat → Bool) (cells : List String)
    (cols : Nat) (r : Nat) (rowData : List String) :
    (fillRowEvents ok cells cols r rowData).map FillEvent.call =
      (fillRowEvents ok' cells cols r rowData).map FillEvent.call := by
  unfold fillRowEvents
  rw [List.map_filterMap, List.map_filterMap]
  congr 1
  funext c
  split
  · split
    · rfl
    · rfl
  · rfl

/-- C7.  Table fill: with `C` the maximum row length of the grid, every
attempted cell fill targets container `r * C + c` with the grid content
at `(r, c)`; a fill is attempted exactly when the container index lies
within the fetched list, the column lies within the row's own length and
the content is non-empty; fills happen in row-major order; and the set of
attempted calls does not depend on per-cell success or failure (a failed
fill never aborts the remaining cells). -/
theorem fill_table_semantics (ok : Nat → Nat → Bool) (cells : List String)
    (data : List (List String)) :
    (∀ e : FillEvent,
      e ∈ (fill_table ok (some cells) data).2 ↔
        e.row < data.length ∧ e.col < maxLen data ∧
          e.row * maxLen data + e.col < cells.length ∧
          e.col < (data.getD e.row []).length ∧
          e.content = (data.getD e.row []).getD e.col "" ∧ e.content ≠ "" ∧
          e.cellId = cells.getD (e.row * maxLen data + e.col) "" ∧
          e.ok = ok e.row e.col) ∧
    ((fill_table ok (some cells) data).2).Pairwise rowMajorLt ∧
    (∀ ok' : Nat → Nat → Bool,
      ((fill_table ok (some cells) data).2).map FillEvent.call =
        ((fill_table ok' (some cells) data).2).map FillEvent.call) := by
  refine ⟨?_, ?_, ?_⟩
  · intro e
    show e ∈ ((List.range data.length).map
        (fun r => fillRowEvents ok cells (maxLen data) r (data.getD r []))).flatten ↔ _
    rw [List.mem_flatten]
    constructor
    · rintro ⟨sub, hsub, he⟩
      obtain ⟨r, hr, hsubeq⟩ := List.mem_map.mp hsub
      subst hsubeq
      have hrow := fillRowEvents_row he
      rw [mem_fillRowEvents] at he
      obtain ⟨h1, h2, h3, h4, h5, h6, h7, h8⟩ := he
      subst h1
      exact ⟨List.mem_range.mp hr, h2, h3, h4, h5, h6, h7, h8⟩
    · rintro ⟨h1, h2, h3, h4, h5, h6, h7, h8⟩
      refine ⟨fillRowEvents ok cells (maxLen data) e.row (data.getD e.row []),
        List.mem_map.mpr ⟨e.row, List.mem_range.mpr h1, rfl⟩, ?_⟩
      rw [mem_fillRowEvents]
      exact ⟨rfl, h2, h3, h4, h5, h6, h7, h8⟩
  · show (((List.range data.length).map
        (fun r => fillRowEvents ok cells (maxLen data) r (data.getD r []))).flatten).Pairwise
      rowMajorLt
    rw [List.pairwise_flatten]
    refine ⟨?_, ?_⟩
    · intro sub hsub
      obtain ⟨r, -, hsubeq⟩ := List.mem_map.mp hsub
      subst hsubeq
      exact fillRowEvents_pairwise ok cells (maxLen data) r _
    · rw [List.pairwise_map]
      refine (List.pairwise_lt_range data.length).imp ?_
      intro r r' hrr x hx y hy
      exact Or.inl (by rw [fillRowEvents_row hx, fillRowEvents_row hy]; exact hrr)
  · intro ok'
    show (((List.range data.length).map
        (fun r => fillRowEvents ok cells (maxLen data) r (data.getD r []))).flatten).map
        FillEvent.call =
      (((List.range data.length).map
        (fun r => fillRowEvents ok' cells (maxLen data) r (data.getD r []))).flatten).map
        FillEvent.call
    rw [List.map_flatten, List.map_flatten]
    congr 1
    rw [List.map_map, List.map_map]
    refine List.map_congr_left ?_
    intro r _
    exact fillRowEvents_map_call ok ok' cells (maxLen data) r _

/-- C7, witness: in a 2-by-3 grid with six fetched containers, cell
(1, 2) is filled into container 5. -/
theorem fill_table_semantics_witness :
    FillEvent.mk 1 2 "c5" "f" true ∈
      (fill_table (fun _ _ => true)
        (some ["c0", "c1", "c2", "c3", "c4", "c5"])
        [["a", "b", "c"], ["d", "e", "f"]]).2 :=
  ((fill_table_semantics (fun _ _ => true) ["c0", "c1", "c2", "c3", "c4", "c5"]
      [["a", "b", "c"], ["d", "e", "f"]]).1 ⟨1, 2, "c5", "f", true⟩).mpr (by decide)

/-! ## C8: idempotent image cache -/

/-- C8.  The resolver's returned path is always the name derived from the
URL's content hash and inferred extension; a resolution finding that name
in the cache returns it with no fetch; and for a URL not yet cached whose
fetch succeeds, the first resolution fetches once and stores the file
while the second returns the same path from the cache with no fetch — so
resolving the same URL twice performs exactly one network fetch. -/
theorem download_cache_idempotent (hash : String → String) (fetchOk : String → Bool)
    (cache : List String) (url : String) :
    (∀ res, (download_from_url hash fetchOk cache url).1 = some res →
      res = imgCacheName hash url) ∧
    (∀ cache' : List String, imgCacheName hash url ∈ cache' →
      download_from_url hash fetchOk cache' url =
        (some (imgCacheName hash url), cache', 0)) ∧
    (imgCacheName hash url ∉ cache → fetchOk url = true →
      download_from_url hash fetchOk cache url =
        (some (imgCacheName hash url), imgCacheName hash url :: cache, 1) ∧
      download_from_url hash fetchOk (imgCacheName hash url :: cache) url =
        (some (imgCacheName hash url), imgCacheName hash url :: cache, 0)) := by
  refine ⟨?_, ?_, ?_⟩
  · intro res hres
    unfold download_from_url at hres
    split at hres
    · exact (Option.some_inj.mp hres).symm
    · split at hres
      · exact (Option.some_inj.mp hres).symm
      · exact Option.noConfusion hres
  · intro cache' hmem
    unfold download_from_url
    rw [if_pos hmem]
  · intro hnot hfetch
    constructor
    · unfold download_from_url
      rw [if_neg hnot, if_pos hfetch]
    · unfold download_from_url
      rw [if_pos (List.mem_cons_self _ _)]

/-- C8, witness: a fresh URL is fetched once; the second resolution hits
the cache. -/
theorem download_cache_idempotent_witness :
    download_from_url (fun _ => "0123456789ab") (fun _ => true) []
        "http://e.com/pics/a.png" =
      (some (imgCacheName (fun _ => "0123456789ab") "http://e.com/pics/a.png"),
       [imgCacheName (fun _ => "0123456789ab") "http://e.com/pics/a.png"], 1) ∧
    download_from_url (fun _ => "0123456789ab") (fun _ => true)
        [imgCacheName (fun _ => "0123456789ab") "http://e.com/pics/a.png"]
        "http://e.com/pics/a.png" =
      (some (imgCacheName (fun _ => "0123456789ab") "http://e.com/pics/a.png"),
       [imgCacheName (fun _ => "0123456789ab") "http://e.com/pics/a.png"], 0) :=
  (download_cache_idempotent (fun _ => "0123456789ab") (fun _ => true) []
    "http://e.com/pics/a.png").2.2 (by simp) rfl

/-! ## C9: duplicate detection short-circuits creation -/

/-- C9.  Publishing with the duplicate check enabled against a non-empty
folder token whose listing contains an item named like the source title
returns the duplicate outcome carrying the first such item, and the only
remote call made is the folder listing — in particular no document
creation call. -/
theorem write_file_duplicate (env : WfEnv) (mdPath : String) (target : Target)
    (folderToken wikiToken : Option String) (ft : String) :
    folderToken = some ft → ft ≠ "" →
    (∃ d ∈ env.listing ft, d.name = pathStem mdPath) →
    ∃ doc, (env.listing ft).find? (fun d => d.name == pathStem mdPath) = some doc ∧
      doc.name = pathStem mdPath ∧
      write_file env mdPath target folderToken wikiToken true =
        (WfResult.duplicate doc.token (pathStem mdPath) doc, [WfCall.listFiles ft]) ∧
      ∀ ev ∈ (write_file env mdPath target folderToken wikiToken true).2,
        (∀ t s p, ev ≠ WfCall.createWikiDoc t s p) ∧
        (∀ t f, ev ≠ WfCall.createDoc t f) := by
  intro hft hftne hex
  have hfe : ft.isEmpty = false := by
    cases hfe2 : ft.isEmpty
    · rfl
    · exact absurd ((String.isEmpty_iff ft).mp hfe2) hftne
  have hsome : ((env.listing ft).find? (fun d => d.name == pathStem mdPath)).isSome
      = true := by
    obtain ⟨d, hd, hdn⟩ := hex
    exact List.find?_isSome.mpr ⟨d, hd, beq_iff_eq.mpr hdn⟩
  obtain ⟨doc, hfind⟩ := Option.isSome_iff_exists.mp hsome
  have hname : doc.name = pathStem mdPath := by
    have hp := @List.find?_some DocInfo (fun d => d.name == pathStem mdPath) doc
      (env.listing ft) hfind
    exact beq_iff_eq.mp hp
  have hmain : write_file env mdPath target folderToken wikiToken true =
      (WfResult.duplicate doc.token (pathStem mdPath) doc, [WfCall.listFiles ft]) := by
    simp only [write_file, hft]
    simp [optTruthy, hfe, hfind]
  refine ⟨doc, hfind, hname, hmain, ?_⟩
  intro ev hev
  rw [hmain] at hev
  have hev2 : ev = WfCall.listFiles ft := by simpa using hev
  subst hev2
  exact ⟨fun t s p h => WfCall.noConfusion h, fun t f h => WfCall.noConfusion h⟩

/-- The concrete environment of the C9 witness: one folder whose listing
holds a single document named `title0`. -/
def envDup : WfEnv :=
  ⟨fun _ => [⟨"title0", "tok0"⟩], none, none, fun _ => none, none, none⟩

/-- C9, witness: publishing `docs/title0.md` into that folder returns the
duplicate outcome with the existing item's token, after only the listing
call. -/
theorem write_file_duplicate_witness :
    write_file envDup "docs/title0.md" Target.space (some "fld") none true =
      (WfResult.duplicate "tok0" "title0" ⟨"title0", "tok0"⟩,
       [WfCall.listFiles "fld"]) := by
  obtain ⟨doc, hfind, -, hmain, -⟩ :=
    write_file_duplicate envDup "docs/title0.md" Target.space (some "fld") none "fld"
      rfl (by decide) ⟨⟨"title0", "tok0"⟩, by decide, by decide⟩
  have hdoc : doc = ⟨"title0", "tok0"⟩ := by
    have heval : (envDup.listing "fld").find?
        (fun d => d.name == pathStem "docs/title0.md") = some ⟨"title0", "tok0"⟩ := by
      decide
    rw [heval] at hfind
    exact (Option.some_inj.mp hfind).symm
  subst hdoc
  have hstem : pathStem "docs/title0.md" = "title0" := by decide
  rw [hstem] at hmain
  exact hmain
